import Mathlib

/-!
# HyprSupreme-Builder: a shallow embedding of the core managers

This file embeds the core of the HyprSupreme-Builder repository
(`src/config.rs`, `src/plugins.rs`, `src/themes.rs`) in Lean 4 and proves
properties of the embedded program.

Modelling conventions:
* Rust `HashMap<String, V>` is modelled as an association list
  `List (String × V)` with `lookupA` (first match) and `insertA`
  (replace-in-place or append).  All theorems are quantified over the list,
  which covers every iteration order the `HashMap` may present.
* File-system and process effects are external collaborators: functions that
  consult them take the relevant outcome as an explicit argument
  (e.g. `targetExists` for `install_plugin`'s directory probe).
* The recursive `enable_plugin` / `disable_plugin` have no termination
  guarantee in the source, so they are modelled with an explicit fuel
  parameter; the `OpResult.diverge` outcome means the recursion depth
  exceeded the fuel at every unfolding, i.e. real nontermination is
  "`diverge` for every fuel".
* The external `semver` crate is modelled for the version / requirement
  shapes the program uses (plain `major.minor.patch` versions, bare or
  caret requirements), following the crate's documented caret semantics.
-/

namespace HyprSupreme

/-- First-match lookup in an association list, the model of `HashMap::get`. -/
def lookupA {α : Type} : List (String × α) → String → Option α
  | [], _ => none
  | (k, v) :: rest, key => if k = key then some v else lookupA rest key

/-- Model of `HashMap::contains_key`. -/
def containsKeyA {α : Type} (l : List (String × α)) (key : String) : Bool :=
  (lookupA l key).isSome

/-- Model of `HashMap::insert`: replace the entry in place if the key is
present, otherwise append. -/
def insertA {α : Type} (key : String) (v : α) : List (String × α) → List (String × α)
  | [] => [(key, v)]
  | (k, w) :: rest => if k = key then (key, v) :: rest else (k, w) :: insertA key v rest

/-- Model of `HashMap::remove` (the returned value is not used by the code we
verify, so only the resulting map is produced). -/
def removeA {α : Type} (key : String) (l : List (String × α)) : List (String × α) :=
  l.filter (fun kv => kv.1 ≠ key)

@[simp] theorem lookupA_nil {α : Type} (key : String) : lookupA ([] : List (String × α)) key = none := rfl

theorem lookupA_cons {α : Type} (k : String) (v : α) (rest : List (String × α)) (key : String) :
    lookupA ((k, v) :: rest) key = if k = key then some v else lookupA rest key := rfl

theorem lookupA_insertA_self {α : Type} (key : String) (v : α) :
    ∀ l : List (String × α), lookupA (insertA key v l) key = some v := by
  intro l
  induction l with
  | nil => simp [insertA, lookupA]
  | cons kv rest ih =>
    obtain ⟨k, w⟩ := kv
    by_cases h : k = key
    · simp [insertA, h, lookupA]
    · simp [insertA, h, lookupA, ih]

theorem lookupA_insertA_ne {α : Type} (key : String) (v : α) (x : String) (hx : x ≠ key) :
    ∀ l : List (String × α), lookupA (insertA key v l) x = lookupA l x := by
  intro l
  induction l with
  | nil => simp [insertA, lookupA, Ne.symm hx]
  | cons kv rest ih =>
    obtain ⟨k, w⟩ := kv
    by_cases h : k = key
    · subst h
      simp [insertA, lookupA, Ne.symm hx]
    · simp [insertA, h, lookupA, ih]

/-! ## The semver model

`PluginManifest::satisfies_requirement` delegates to the external `semver`
crate.  We model `semver::Version::parse` for plain numeric
`major.minor.patch` strings and `semver::VersionReq::parse` for the bare and
caret (`^`) requirement forms the repository's data uses; both the bare and
the caret form denote the crate's caret ("compatible") comparator.  `none`
models a parse error (surfaced as an error by `satisfies_requirement`). -/

/-- Split a character list at every `'.'` (the field separator of a semver
version string). -/
def splitDots : List Char → List (List Char)
  | [] => [[]]
  | c :: rest =>
    if c = '.' then [] :: splitDots rest
    else
      match splitDots rest with
      | g :: gs => (c :: g) :: gs
      | [] => [[c]]

/-- Parse a nonempty all-digit character list as a natural number. -/
def natOfDigits (cs : List Char) : Option Nat :=
  if cs ≠ [] ∧ cs.all Char.isDigit then
    some (cs.foldl (fun n c => n * 10 + (c.toNat - 48)) 0)
  else none

/-- Model of `semver::Version::parse` on plain numeric versions. -/
def parseVersionChars (cs : List Char) : Option (Nat × Nat × Nat) :=
  match (splitDots cs).map natOfDigits with
  | [some a, some b, some c] => some (a, b, c)
  | _ => none

/-- Model of `semver::Version::parse` on plain numeric versions. -/
def parseVersion (s : String) : Option (Nat × Nat × Nat) :=
  parseVersionChars s.data

/-- Model of `semver::VersionReq::parse` on bare/caret numeric requirements;
both forms carry caret ("compatible") semantics in the `semver` crate. -/
def parseRequirement (s : String) : Option (Nat × Nat × Nat) :=
  match s.data with
  | '^' :: rest => parseVersionChars rest
  | cs => parseVersionChars cs

/-- Lexicographic strict order on `(major, minor, patch)`. -/
def versionLt (a b : Nat × Nat × Nat) : Bool :=
  a.1 < b.1 || (a.1 = b.1 && (a.2.1 < b.2.1 || (a.2.1 = b.2.1 && a.2.2 < b.2.2)))

/-- Lexicographic order on `(major, minor, patch)`. -/
def versionLe (a b : Nat × Nat × Nat) : Bool :=
  versionLt a b || a = b

/-- The exclusive upper bound of a caret requirement, per the `semver`
crate's rules for compatible updates. -/
def caretUpper (r : Nat × Nat × Nat) : Nat × Nat × Nat :=
  if r.1 > 0 then (r.1 + 1, 0, 0)
  else if r.2.1 > 0 then (0, r.2.1 + 1, 0)
  else (0, r.2.1, r.2.2 + 1)

/-- `VersionReq::matches` for a caret requirement. -/
def reqMatches (r v : Nat × Nat × Nat) : Bool :=
  versionLe r v && versionLt v (caretUpper r)

/-- Model of `PluginManifest::satisfies_requirement` (`plugins.rs:160`):
parse the requirement, parse the version, and test the match; `none` models
either parse failing (the `Result::Err` path). -/
def satisfiesRequirement (version req : String) : Option Bool :=
  match parseRequirement req, parseVersion version with
  | some r, some v => some (reqMatches r v)
  | _, _ => none

/-! ## The plugin data model (`plugins.rs`) -/

/-- `PluginHook` (`plugins.rs:62`). -/
structure PluginHook where
  name : String
  script : String
  priority : Int
deriving DecidableEq, Repr

/-- `PluginCommand` (`plugins.rs:76`). -/
structure PluginCommand where
  name : String
  description : Option String
  script : String
deriving DecidableEq, Repr

/-- `PluginManifest` (`plugins.rs:11`).  The opaque `config_schema`
JSON value is not interpreted by any code we verify and is omitted. -/
structure PluginManifest where
  name : String
  display_name : Option String
  version : String
  author : Option String
  description : Option String
  license : Option String
  repository : Option String
  dependencies : List (String × String)
  hooks : List PluginHook
  commands : List PluginCommand
deriving DecidableEq, Repr

/-- `PluginState` (`plugins.rs:173`). -/
inductive PluginState where
  | notInstalled
  | installed
  | enabled
  | error (msg : String)
deriving DecidableEq, Repr

/-- `Plugin` (`plugins.rs:189`): a manifest, its directory, and a state. -/
structure Plugin where
  manifest : PluginManifest
  directory : String
  state : PluginState
deriving DecidableEq, Repr

/-- `PluginManager` (`plugins.rs:373`).  The `loader` field only holds
file-system search paths consumed by discovery, which is an external
collaborator here, so it is not part of the registry state. -/
structure PluginManager where
  plugins : List (String × Plugin)
  enabled_plugins : List String
deriving DecidableEq, Repr

/-- The error kinds produced by the registry operations (the source uses
`eyre` string errors; the spec classifies them into these kinds). -/
inductive PluginError where
  | notFound (name : String)
  | missingDependency (plugin dep : String)
  | versionMismatch (plugin dep req : String)
  | invalidRequirement (plugin dep : String)
  | alreadyInstalled (name : String)
  | fsFailure
deriving DecidableEq, Repr

/-- The outcome of a registry operation on `&mut self`: `ok`/`err` carry the
(possibly mutated) manager, `diverge` means the recursion exceeded the fuel. -/
inductive OpResult where
  | ok (m : PluginManager)
  | err (e : PluginError) (m : PluginManager)
  | diverge
deriving DecidableEq, Repr

/-- The manager state an `ok` or `err` outcome left behind (`none` for
`diverge`).  Mirrors the fact that in Rust both `Ok` and `Err` returns leave
`self` in its current, possibly mutated, state. -/
def OpResult.endState : OpResult → Option PluginManager
  | .ok m => some m
  | .err _ m => some m
  | .diverge => none

/-- The in-place state update `if let Some(plugin) = self.plugins.get_mut(name)
{ plugin.state = st }`. -/
def setPluginState (ps : List (String × Plugin)) (name : String) (st : PluginState) :
    List (String × Plugin) :=
  ps.map (fun kp => if kp.1 = name then (kp.1, { kp.2 with state := st }) else kp)

mutual
/-- `PluginManager::enable_plugin` (`plugins.rs:439`) together with its
dependency loop (`enableDeps`).  The Rust recursion carries no fuel; the
fuel is decremented at every recursive step so that genuine nontermination
is exactly `diverge` at every fuel. -/
def enablePlugin : Nat → PluginManager → String → OpResult
  | 0, _, _ => .diverge
  | fuel + 1, m, name =>
    match lookupA m.plugins name with
    | none => .err (.notFound name) m
    | some plugin =>
      if name ∈ m.enabled_plugins then .ok m
      else enableDeps fuel m name plugin.manifest.dependencies

/-- The `for (dep_name, dep_req) in dependencies` loop of `enable_plugin`,
followed (on the `[]` case, i.e. loop exit) by the state update and the push
onto `enabled_plugins`. -/
def enableDeps : Nat → PluginManager → String → List (String × String) → OpResult
  | 0, _, _, _ => .diverge
  | _ + 1, m, name, [] =>
    .ok { plugins := setPluginState m.plugins name .enabled
          enabled_plugins := m.enabled_plugins ++ [name] }
  | fuel + 1, m, name, (depName, depReq) :: rest =>
    match lookupA m.plugins depName with
    | none => .err (.missingDependency name depName) m
    | some dep =>
      match satisfiesRequirement dep.manifest.version depReq with
      | none => .err (.invalidRequirement name depName) m
      | some false => .err (.versionMismatch name depName depReq) m
      | some true =>
        if depName ∈ m.enabled_plugins then enableDeps fuel m name rest
        else
          match enablePlugin fuel m depName with
          | .ok m2 => enableDeps fuel m2 name rest
          | r => r
end

mutual
/-- `PluginManager::disable_plugin` (`plugins.rs:485`) together with its
dependent loop (`disableDependents`). -/
def disablePlugin : Nat → PluginManager → String → OpResult
  | 0, _, _ => .diverge
  | fuel + 1, m, name =>
    if containsKeyA m.plugins name then
      if name ∈ m.enabled_plugins then
        disableDependents fuel m name
          ((m.plugins.filter (fun kp => containsKeyA kp.2.manifest.dependencies name)).map Prod.fst)
      else .ok m
    else .err (.notFound name) m

/-- The `for dep_name in dependent_plugins` loop of `disable_plugin`,
followed (on loop exit) by the state update and the `retain` removal. -/
def disableDependents : Nat → PluginManager → String → List String → OpResult
  | 0, _, _, _ => .diverge
  | _ + 1, m, name, [] =>
    .ok { plugins := setPluginState m.plugins name .installed
          enabled_plugins := m.enabled_plugins.filter (fun n => n ≠ name) }
  | fuel + 1, m, name, d :: rest =>
    match disablePlugin fuel m d with
    | .ok m2 => disableDependents fuel m2 name rest
    | r => r
end

/-- `PluginManager::install_plugin` (`plugins.rs:520`).  Locating the source
manifest and the config directory happen before any mutation, so the parsed
`manifest` and the computed `targetDir` are taken as inputs; `targetExists`
is the `target_dir.exists()` probe and `copyOk` the outcome of the
`fs_extra` copy (both external file-system effects). -/
def installPlugin (m : PluginManager) (manifest : PluginManifest) (targetDir : String)
    (targetExists copyOk : Bool) : OpResult :=
  if targetExists then .err (.alreadyInstalled manifest.name) m
  else if copyOk then
    .ok { m with plugins := insertA manifest.name ⟨manifest, targetDir, .installed⟩ m.plugins }
  else .err .fsFailure m

/-- `PluginManager::initialize` (`plugins.rs:395`): insert every discovered
plugin (each constructed by `Plugin::new`, i.e. with state `Installed`) into
the map, keyed by its manifest name.  Discovery itself is a file-system
collaborator, so the discovered `(manifest, directory)` pairs are an input. -/
def registerDiscovered (m : PluginManager) (found : List (PluginManifest × String)) :
    PluginManager :=
  { m with
    plugins := found.foldl (fun ps md => insertA md.1.name ⟨md.1, md.2, .installed⟩ ps) m.plugins }

/-- `PluginManager::uninstall_plugin` (`plugins.rs:574`): disable first when
enabled, then remove the on-disk directory (`fsOk` models that effect: on
failure the error returns after the disable already mutated the registry),
then drop the map entry. -/
def uninstallPlugin (fuel : Nat) (m : PluginManager) (name : String) (fsOk : Bool) : OpResult :=
  if containsKeyA m.plugins name then
    match (if name ∈ m.enabled_plugins then disablePlugin fuel m name else .ok m) with
    | .ok m2 =>
      if fsOk then .ok { m2 with plugins := removeA name m2.plugins }
      else .err .fsFailure m2
    | r => r
  else .err (.notFound name) m

/-! ## The configuration data model (`config.rs`) -/

/-- `Metadata` (`config.rs:43`). -/
structure Metadata where
  name : String
  author : Option String
  version : String
  description : Option String
deriving DecidableEq, Repr

/-- `Import` (`config.rs:87`). -/
structure Import where
  path : String
  merge : Bool
deriving DecidableEq, Repr

/-- `HyprlandModule` (`config.rs:121`). -/
structure HyprlandModule where
  name : String
  path : String
  enabled : Bool
deriving DecidableEq, Repr

/-- `Keybinding` (`config.rs:139`). -/
structure Keybinding where
  modifiers : List String
  key : String
  command : String
  description : Option String
deriving DecidableEq, Repr

/-- `Autostart` (`config.rs:156`). -/
structure Autostart where
  command : String
  wait : Bool
  workspace : Option String
deriving DecidableEq, Repr

/-- `HyprlandConfig` (`config.rs:98`). -/
structure HyprlandConfig where
  config_path : Option String
  modules : List HyprlandModule
  theme : List (String × String)
  keybindings : List Keybinding
  autostart : List Autostart
deriving DecidableEq, Repr

/-- `Profile` (`config.rs:71`). -/
structure Profile where
  «variables» : List (String × String)
  imports : List Import
  hyprland : Option HyprlandConfig
deriving DecidableEq, Repr

/-- `Config` (`config.rs:11`). -/
structure Config where
  metadata : Metadata
  «variables» : List (String × String)
  profiles : List (String × Profile)
  default_profile : String
  imports : List Import
  hyprland : HyprlandConfig
deriving DecidableEq, Repr

/-- The `for (key, value) in other.variables` loop of `Config::merge_config`
(`config.rs:227`): with `merge` set, keys already present are skipped,
otherwise every key is inserted. -/
def mergeVariables (target other : List (String × String)) (merge : Bool) :
    List (String × String) :=
  other.foldl
    (fun acc kv => if merge && containsKeyA acc kv.1 then acc else insertA kv.1 kv.2 acc)
    target

/-- The in-place union of an imported profile into an existing one
(`config.rs:238`): variables fill gaps only, import lists concatenate, the
platform block is taken from the import only when the target has none. -/
def mergeProfileInto (existing imported : Profile) : Profile :=
  { «variables» :=
      imported.«variables».foldl
        (fun acc kv => if containsKeyA acc kv.1 then acc else insertA kv.1 kv.2 acc)
        existing.«variables»
    imports := existing.imports ++ imported.imports
    hyprland :=
      match existing.hyprland with
      | none => imported.hyprland
      | some h => some h }

/-- The `for (name, profile) in other.profiles` loop of `Config::merge_config`
(`config.rs:235`). -/
def mergeProfiles (target other : List (String × Profile)) (merge : Bool) :
    List (String × Profile) :=
  other.foldl
    (fun acc np =>
      if merge && containsKeyA acc np.1 then
        match lookupA acc np.1 with
        | some existing => insertA np.1 (mergeProfileInto existing np.2) acc
        | none => acc
      else insertA np.1 np.2 acc)
    target

/-- The `for (key, value) in other.hyprland.theme` loop of
`Config::merge_config` (`config.rs:265`): fill gaps only. -/
def mergeTheme (target other : List (String × String)) : List (String × String) :=
  other.foldl
    (fun acc kv => if containsKeyA acc kv.1 then acc else insertA kv.1 kv.2 acc)
    target

/-- `Config::merge_config` (`config.rs:225`). -/
def mergeConfig (self other : Config) (merge : Bool) : Config :=
  { self with
    «variables» := mergeVariables self.«variables» other.«variables» merge
    profiles := mergeProfiles self.profiles other.profiles merge
    imports := self.imports ++ other.imports
    hyprland :=
      if merge then
        { self.hyprland with
          modules := self.hyprland.modules ++ other.hyprland.modules
          theme := mergeTheme self.hyprland.theme other.hyprland.theme
          keybindings := self.hyprland.keybindings ++ other.hyprland.keybindings
          autostart := self.hyprland.autostart ++ other.hyprland.autostart }
      else if self.hyprland.config_path = none then other.hyprland
      else self.hyprland }

/-! ## The variable resolver (`config.rs:287`)

The resolver repeatedly takes the first `${name}` placeholder (the regex
`\$\{([a-zA-Z0-9_.-]+)\}` in the source), looks the name up in the profile
variables, falling back to the global variables and then to the empty
string, and replaces every occurrence of the matched text, guarding against
revisiting a name.  Strings are processed as character lists. -/

/-- The regex character class `[a-zA-Z0-9_.-]`. -/
def isVarChar (c : Char) : Bool :=
  c.isAlpha || c.isDigit || c = '_' || c = '.' || c = '-'

/-- Try to match `\$\{([a-zA-Z0-9_.-]+)\}` at the head of the list; on
success return the full matched text and the captured name.  (The regex's
greedy `+` with backtracking coincides with "maximal run of class characters
followed by `}`", because `}` is not in the class.) -/
def matchPlaceholder : List Char → Option (List Char × List Char)
  | c1 :: c2 :: rest =>
    if c1 = '$' ∧ c2 = '{' then
      match rest.drop (rest.takeWhile isVarChar).length with
      | d :: _ =>
        if d = '}' ∧ rest.takeWhile isVarChar ≠ [] then
          some ('$' :: '{' :: (rest.takeWhile isVarChar ++ ['}']), rest.takeWhile isVarChar)
        else none
      | [] => none
    else none
  | _ => none

/-- The leftmost regex match in the string, i.e. `VAR_REGEX.captures(&result)`. -/
def findPlaceholder : List Char → Option (List Char × List Char)
  | [] => none
  | c :: cs =>
    match matchPlaceholder (c :: cs) with
    | some r => some r
    | none => findPlaceholder cs

/-- The left-to-right scan of Rust `str::replace`: while `skip` is positive
the scan is inside an already-replaced occurrence and just drops characters;
at `skip = 0` a match of `pat` emits `repl` and schedules the rest of the
occurrence for skipping. -/
def replaceAllGo (pat repl : List Char) : Nat → List Char → List Char
  | _, [] => []
  | skip + 1, _ :: cs => replaceAllGo pat repl skip cs
  | 0, c :: cs =>
    if pat ≠ [] ∧ pat.isPrefixOf (c :: cs) then
      repl ++ replaceAllGo pat repl (pat.length - 1) cs
    else c :: replaceAllGo pat repl 0 cs

/-- Rust `str::replace`: replace every left-to-right non-overlapping
occurrence of `pat` (nonempty here) by `repl`. -/
def replaceAll (s pat repl : List Char) : List Char :=
  replaceAllGo pat repl 0 s

/-- The per-placeholder lookup
`profile.variables.get(var_name).or_else(|| self.variables.get(var_name))
.map(|s| s.as_str()).unwrap_or("")` (`config.rs:312`). -/
def lookupVariable (profVars globalVars : List (String × String)) (name : String) : String :=
  match lookupA profVars name with
  | some v => v
  | none =>
    match lookupA globalVars name with
    | some v => v
    | none => ""

theorem lookupA_eq_none_of_notMem_keys {α : Type} (k : String) :
    ∀ l : List (String × α), k ∉ l.map Prod.fst → lookupA l k = none := by
  intro l
  induction l with
  | nil => intro _; rfl
  | cons kv rest ih =>
    intro hk
    obtain ⟨k', v⟩ := kv
    simp only [List.map_cons, List.mem_cons] at hk
    push_neg at hk
    simp [lookupA, Ne.symm hk.1, ih hk.2]

theorem matchPlaceholder_split (s full nm : List Char)
    (h : matchPlaceholder s = some (full, nm)) :
    ∃ suf, s = full ++ suf ∧ full = '$' :: '{' :: (nm ++ ['}']) := by
  match s with
  | [] => exact absurd h (by simp [matchPlaceholder])
  | [c] => exact absurd h (by simp [matchPlaceholder])
  | c1 :: c2 :: rest =>
    rw [matchPlaceholder] at h
    split at h
    · next hcc =>
      obtain ⟨rfl, rfl⟩ := hcc
      obtain ⟨t, ht⟩ := @List.takeWhile_prefix Char rest isVarChar
      have hd : rest.drop (rest.takeWhile isVarChar).length = t := by
        rw [← List.drop_left (rest.takeWhile isVarChar) t, ht]
      split at h
      · next d tl heq =>
        split at h
        · next hdnm =>
          obtain ⟨rfl, hnmne⟩ := hdnm
          simp only [Option.some.injEq, Prod.mk.injEq] at h
          obtain ⟨hfull, hnm⟩ := h
          subst hnm
          refine ⟨tl, ?_, hfull.symm⟩
          rw [hd] at heq
          rw [← hfull]
          simp only [List.cons_append, List.append_assoc, List.singleton_append,
            List.nil_append]
          rw [← heq, ht]
        · exact absurd h (by simp)
      · exact absurd h (by simp)
    · exact absurd h (by simp)

theorem findPlaceholder_split (s full nm : List Char)
    (h : findPlaceholder s = some (full, nm)) :
    ∃ pre suf, s = pre ++ full ++ suf ∧ full = '$' :: '{' :: (nm ++ ['}']) := by
  induction s with
  | nil => exact absurd h (by simp [findPlaceholder])
  | cons c cs ih =>
    rw [findPlaceholder] at h
    revert h
    split
    · next r hm =>
      intro h
      obtain ⟨rfl⟩ : r = (full, nm) := by simpa using h
      obtain ⟨suf, hs, hf⟩ := matchPlaceholder_split _ _ _ hm
      exact ⟨[], suf, by simpa using hs, hf⟩
    · intro h
      obtain ⟨pre, suf, hs, hf⟩ := ih h
      exact ⟨c :: pre, suf, by simp [hs], hf⟩

theorem replaceAllGo_length_le (pat repl : List Char) (hle : repl.length ≤ pat.length) :
    ∀ (s : List Char) (skip : Nat), (replaceAllGo pat repl skip s).length ≤ s.length - skip := by
  intro s
  induction s with
  | nil => intro skip; cases skip <;> simp [replaceAllGo]
  | cons c cs ih =>
    intro skip
    cases skip with
    | succ n =>
      rw [replaceAllGo]
      simpa using ih n
    | zero =>
      rw [replaceAllGo]
      split
      · next hcond =>
        have hp : 0 < pat.length := List.length_pos.mpr hcond.1
        have hpre : pat.length ≤ (c :: cs).length :=
          (List.isPrefixOf_iff_prefix.mp hcond.2).length_le
        simp only [List.length_append, List.length_cons] at *
        have := ih (pat.length - 1)
        omega
      · have := ih 0
        simp only [List.length_cons] at *
        omega

theorem replaceAllGo_length_lt (pat suf : List Char) (hpat : pat ≠ []) :
    ∀ pre : List Char,
      (replaceAllGo pat [] 0 (pre ++ pat ++ suf)).length < (pre ++ pat ++ suf).length := by
  intro pre
  induction pre with
  | nil =>
    simp only [List.nil_append]
    have hcons : ∃ p ps, pat = p :: ps := by
      cases pat with
      | nil => exact absurd rfl hpat
      | cons p ps => exact ⟨p, ps, rfl⟩
    obtain ⟨p, ps, rfl⟩ := hcons
    rw [List.cons_append, replaceAllGo]
    have hpre : (p :: ps).isPrefixOf (p :: (ps ++ suf)) := by
      rw [List.isPrefixOf_iff_prefix]
      exact ⟨suf, by simp⟩
    rw [if_pos ⟨hpat, by simpa using hpre⟩]
    have hle := replaceAllGo_length_le (p :: ps) [] (by simp) (ps ++ suf) ((p :: ps).length - 1)
    simp only [List.nil_append, List.length_append, List.length_cons] at *
    omega
  | cons c pre' ih =>
    rw [List.cons_append, List.cons_append, replaceAllGo]
    split
    · next hcond =>
      have hle := replaceAllGo_length_le pat [] (by simp)
        ((pre' ++ pat ++ suf)) (pat.length - 1)
      have hp : 0 < pat.length := List.length_pos.mpr hcond.1
      simp only [List.nil_append, List.length_append, List.length_cons] at *
      omega
    · simp only [List.length_cons, List.cons_append] at *
      omega

/-- Strict replacement shrinks the string: replacing a nonempty pattern that
occurs in `s` by the empty string makes the string strictly shorter. -/
theorem replaceAll_empty_length_lt (s pat : List Char) (hpat : pat ≠ [])
    (hocc : ∃ pre suf, s = pre ++ pat ++ suf) :
    (replaceAll s pat []).length < s.length := by
  obtain ⟨pre, suf, rfl⟩ := hocc
  exact replaceAllGo_length_lt pat suf hpat pre

theorem filter_length_le {α : Type} (f g : α → Bool) (hfg : ∀ x, f x = true → g x = true) :
    ∀ l : List α, (l.filter f).length ≤ (l.filter g).length := by
  intro l
  induction l with
  | nil => simp
  | cons x rest ih =>
    by_cases hf : f x = true
    · simp [List.filter_cons, hf, hfg x hf, Nat.succ_le_succ ih]
    · rw [List.filter_cons, if_neg (by simpa using hf)]
      by_cases hg : g x = true
      · simp only [List.filter_cons, if_pos (by simpa using hg), List.length_cons]
        omega
      · rw [List.filter_cons, if_neg (by simpa using hg)]
        exact ih

theorem filter_length_lt {α : Type} [DecidableEq α] (f g : α → Bool)
    (hfg : ∀ x, f x = true → g x = true) (a : α) (hfa : f a = false) (hga : g a = true) :
    ∀ l : List α, a ∈ l → (l.filter f).length < (l.filter g).length := by
  intro l
  induction l with
  | nil => simp
  | cons x rest ih =>
    intro hmem
    by_cases hax : x = a
    · subst hax
      rw [List.filter_cons, if_neg (by simp [hfa]), List.filter_cons, if_pos (by simpa using hga)]
      exact Nat.lt_succ_of_le (filter_length_le f g hfg rest)
    · have hmem' : a ∈ rest := by
        rcases List.mem_cons.mp hmem with h | h
        · exact absurd h.symm hax
        · exact h
      have := ih hmem'
      by_cases hf : f x = true
      · simp only [List.filter_cons, if_pos (by simpa using hf),
          if_pos (by simpa using hfg x hf), List.length_cons]
        omega
      · rw [List.filter_cons, if_neg (by simpa using hf)]
        by_cases hg : g x = true
        · rw [List.filter_cons, if_pos (by simpa using hg)]
          simp only [List.length_cons]
          omega
        · rw [List.filter_cons, if_neg (by simpa using hg)]
          exact this

/-- The termination measure of the resolution loop: how many keys of the two
variable maps have not yet been visited. -/
def unvisitedCount (profVars globalVars : List (String × String)) (visited : List String) :
    Nat :=
  (((profVars ++ globalVars).map Prod.fst).filter (fun k => k ∉ visited)).length

theorem unvisitedCount_lt (profVars globalVars : List (String × String)) (visited : List String)
    (name : String) (hk : name ∈ (profVars ++ globalVars).map Prod.fst)
    (hv : name ∉ visited) :
    unvisitedCount profVars globalVars (name :: visited) <
      unvisitedCount profVars globalVars visited := by
  apply filter_length_lt _ _ _ name _ _ _ hk
  · intro x hx
    simp only [decide_eq_true_eq] at hx ⊢
    intro hmem
    exact hx (List.mem_cons_of_mem _ hmem)
  · simp
  · simpa using hv

theorem unvisitedCount_eq (profVars globalVars : List (String × String)) (visited : List String)
    (name : String) (hk : name ∉ (profVars ++ globalVars).map Prod.fst) :
    unvisitedCount profVars globalVars (name :: visited) =
      unvisitedCount profVars globalVars visited := by
  unfold unvisitedCount
  congr 1
  apply List.filter_congr
  intro x hx
  have hxn : x ≠ name := by
    intro h
    exact hk (h ▸ hx)
  simp [List.mem_cons, hxn]

/-- The `while let Some(captures) = VAR_REGEX.captures(&result)` loop of
`Config::resolve_variables` (`config.rs:301`): take the first placeholder,
stop if its name was already attempted, otherwise replace every occurrence
of the matched text by the profile-then-global lookup (empty string when
absent) and continue.  Termination, which the Rust code gets from the same
argument, is by the lexicographic measure (unvisited map keys, string
length): a name found in the maps shrinks the first component, an unknown
name is replaced by the empty string and shrinks the string. -/
def resolveLoop (profVars globalVars : List (String × String)) (visited : List String)
    (s : List Char) : List Char :=
  match hf : findPlaceholder s with
  | none => s
  | some (full, nm) =>
    if hv : (⟨nm⟩ : String) ∈ visited then s
    else
      resolveLoop profVars globalVars ((⟨nm⟩ : String) :: visited)
        (replaceAll s full (lookupVariable profVars globalVars ⟨nm⟩).data)
termination_by (unvisitedCount profVars globalVars visited, s.length)
decreasing_by
  by_cases hk : (⟨nm⟩ : String) ∈ (profVars ++ globalVars).map Prod.fst
  · exact Prod.Lex.left _ _ (unvisitedCount_lt _ _ _ _ hk hv)
  · have h1 := unvisitedCount_eq profVars globalVars visited ⟨nm⟩ hk
    have h2 : lookupVariable profVars globalVars ⟨nm⟩ = "" := by
      simp only [List.map_append, List.mem_append] at hk
      push_neg at hk
      unfold lookupVariable
      rw [lookupA_eq_none_of_notMem_keys _ _ (by simpa using hk.1),
        lookupA_eq_none_of_notMem_keys _ _ (by simpa using hk.2)]
    rw [h2]
    obtain ⟨pre, suf, hs, hfull⟩ := findPlaceholder_split s full nm hf
    have hlt : (replaceAll s full (String.data "")).length < s.length := by
      refine replaceAll_empty_length_lt s full ?_ ⟨pre, suf, hs⟩
      rw [hfull]; simp
    rw [h1]
    exact Prod.Lex.right _ hlt

/-- `Config::get_active_profile` (`config.rs:280`): the requested name, or
the configured default. -/
def getActiveProfile (cfg : Config) (profileName : Option String) : Option Profile :=
  lookupA cfg.profiles (profileName.getD cfg.default_profile)

/-- `Config::resolve_variables` (`config.rs:287`): an unknown profile
returns the input unchanged; otherwise the iterative substitution loop
runs with the profile's and the global variable maps. -/
def resolveVariables (cfg : Config) (input : String) (profileName : Option String) : String :=
  match getActiveProfile cfg profileName with
  | none => input
  | some profile =>
    ⟨resolveLoop profile.«variables» cfg.«variables» [] input.data⟩

/-- A fuel-indexed transcript of the resolution loop, used to state that the
`while` loop of `resolve_variables` finishes after finitely many
iterations on every input (`none` = the loop was still running after `fuel`
iterations). -/
def resolveLoopF (profVars globalVars : List (String × String)) :
    Nat → List String → List Char → Option (List Char)
  | 0, _, _ => none
  | fuel + 1, visited, s =>
    match findPlaceholder s with
    | none => some s
    | some (full, nm) =>
      if (⟨nm⟩ : String) ∈ visited then some s
      else
        resolveLoopF profVars globalVars fuel ((⟨nm⟩ : String) :: visited)
          (replaceAll s full (lookupVariable profVars globalVars ⟨nm⟩).data)

/-! ## The theme data model (`themes.rs`) -/

/-- `Theme` (`themes.rs:11`).  The source field `extends` is a Lean keyword
and is embedded as `extendsBase`. -/
structure Theme where
  name : String
  author : Option String
  description : Option String
  version : String
  extendsBase : Option String
  colors : List (String × String)
  «variables» : List (String × String)
  metadata : List (String × String)
deriving DecidableEq, Repr

/-- `Theme::merge` (`themes.rs:110`): insert every color, variable and
metadata entry of `other`, the other theme winning on conflicts. -/
def Theme.merge (t other : Theme) : Theme :=
  { t with
    colors := other.colors.foldl (fun acc kv => insertA kv.1 kv.2 acc) t.colors
    «variables» := other.«variables».foldl (fun acc kv => insertA kv.1 kv.2 acc) t.«variables»
    metadata := other.metadata.foldl (fun acc kv => insertA kv.1 kv.2 acc) t.metadata }

/-! ## Hook dispatch (`plugins.rs:620`) -/

/-- `PluginManager::get_enabled_plugins` (`plugins.rs:432`): resolve the
enabled names against the map, in enable order. -/
def getEnabledPlugins (m : PluginManager) : List Plugin :=
  m.enabled_plugins.filterMap (fun name => lookupA m.plugins name)

/-- The priority the sort key of `execute_hook` gives a plugin: the declared
priority of its first hook with the given name, or `0`. -/
def hookPriorityOf (p : Plugin) (hookName : String) : Int :=
  match p.manifest.hooks.find? (fun h => h.name = hookName) with
  | some h => h.priority
  | none => 0

/-- The plugin sequence that `PluginManager::execute_hook` (`plugins.rs:620`)
invokes, in invocation order: the enabled plugins declaring the hook, sorted
ascending by the hook's priority (a stable sort, as in Rust's `sort_by`).
The actual script invocations are an external effect on this sequence. -/
def hookDispatchOrder (m : PluginManager) (hookName : String) : List Plugin :=
  ((getEnabledPlugins m).filter
      (fun p => p.manifest.hooks.any (fun h => h.name = hookName))).mergeSort
    (fun a b => hookPriorityOf a hookName ≤ hookPriorityOf b hookName)

/-! ## Resolution loop: equations and the fuel transcript -/

theorem resolveLoop_none (profVars globalVars : List (String × String))
    (visited : List String) (s : List Char) (hf : findPlaceholder s = none) :
    resolveLoop profVars globalVars visited s = s := by
  rw [resolveLoop]
  split
  · rfl
  · next full nm hf2 => rw [hf] at hf2; exact absurd hf2 (by simp)

theorem resolveLoop_found_visited (profVars globalVars : List (String × String))
    (visited : List String) (s full nm : List Char)
    (hf : findPlaceholder s = some (full, nm)) (hv : (⟨nm⟩ : String) ∈ visited) :
    resolveLoop profVars globalVars visited s = s := by
  rw [resolveLoop]
  split
  · rfl
  · next full2 nm2 hf2 =>
    rw [hf] at hf2
    obtain ⟨rfl, rfl⟩ : full2 = full ∧ nm2 = nm := by simpa using hf2.symm
    simp [hv]

theorem resolveLoop_step (profVars globalVars : List (String × String))
    (visited : List String) (s full nm : List Char)
    (hf : findPlaceholder s = some (full, nm)) (hv : (⟨nm⟩ : String) ∉ visited) :
    resolveLoop profVars globalVars visited s =
      resolveLoop profVars globalVars ((⟨nm⟩ : String) :: visited)
        (replaceAll s full (lookupVariable profVars globalVars ⟨nm⟩).data) := by
  conv_lhs => rw [resolveLoop]
  split
  · next hf2 => rw [hf] at hf2; exact absurd hf2 (by simp)
  · next full2 nm2 hf2 =>
    rw [hf] at hf2
    obtain ⟨rfl, rfl⟩ : full2 = full ∧ nm2 = nm := by simpa using hf2.symm
    simp [hv]

/-- A finished fuel transcript computes exactly what the loop computes. -/
theorem resolveLoopF_sound (profVars globalVars : List (String × String)) :
    ∀ (fuel : Nat) (visited : List String) (s : List Char) (r : List Char),
      resolveLoopF profVars globalVars fuel visited s = some r →
      resolveLoop profVars globalVars visited s = r := by
  intro fuel
  induction fuel with
  | zero => intro visited s r h; simp [resolveLoopF] at h
  | succ n ih =>
    intro visited s r h
    rw [resolveLoopF] at h
    revert h
    split
    · next hf =>
      intro h
      rw [resolveLoop_none _ _ _ _ hf]
      simpa using h
    · next full nm hf =>
      intro h
      by_cases hv : (⟨nm⟩ : String) ∈ visited
      · rw [if_pos hv] at h
        rw [resolveLoop_found_visited _ _ _ _ _ _ hf hv]
        simpa using h
      · rw [if_neg hv] at h
        rw [resolveLoop_step _ _ _ _ _ _ hf hv]
        exact ih _ _ _ h

/-- Every run of the loop is matched by a finished fuel transcript: the
`while` loop of `resolve_variables` performs finitely many iterations on
every input. -/
theorem resolveLoopF_complete (profVars globalVars : List (String × String)) :
    ∀ (visited : List String) (s : List Char),
      ∃ fuel, resolveLoopF profVars globalVars fuel visited s =
        some (resolveLoop profVars globalVars visited s) := by
  intro visited s
  induction visited, s using resolveLoop.induct profVars globalVars with
  | case1 visited s hf =>
    refine ⟨1, ?_⟩
    rw [resolveLoop_none _ _ _ _ hf, resolveLoopF, hf]
  | case2 visited s full nm hf hv =>
    refine ⟨1, ?_⟩
    rw [resolveLoop_found_visited _ _ _ _ _ _ hf hv, resolveLoopF, hf]
    simp [hv]
  | case3 visited s full nm hf hv ih =>
    obtain ⟨fuel, hfuel⟩ := ih
    refine ⟨fuel + 1, ?_⟩
    rw [resolveLoop_step _ _ _ _ _ _ hf hv, resolveLoopF, hf]
    simp only [if_neg hv]
    exact hfuel

/-! ## Claims about the resolver and config merge -/

/-- The config of the C7 scenario: global `x = "1"`, profile-local
`x = "2"` in profile `default`. -/
def c7cfg : Config :=
  { metadata := ⟨"c", none, "0.1.0", none⟩
    «variables» := [("x", "1")]
    profiles := [("default", ⟨[("x", "2")], [], none⟩)]
    default_profile := "default"
    imports := []
    hyprland := ⟨none, [], [], [], []⟩ }

/-- C7: the per-placeholder lookup of `resolve_variables` always takes the
profile's value when the profile map has the key, whatever the global map
holds (first conjunct, about the lookup `resolve_variables` performs for
every substituted placeholder); in particular resolving `"${x}"` against
profile `"default"` with global `x="1"` and profile-local `x="2"` yields
`"2"` (second conjunct). -/
theorem c7_profile_precedence :
    (∀ (profVars globalVars : List (String × String)) (name v : String),
        lookupA profVars name = some v → lookupVariable profVars globalVars name = v) ∧
    resolveVariables c7cfg "${x}" (some "default") = "2" := by
  constructor
  · intro profVars globalVars name v h
    unfold lookupVariable
    rw [h]
  · show (⟨resolveLoop [("x", "2")] [("x", "1")] [] "${x}".data⟩ : String) = "2"
    have h := resolveLoopF_sound [("x", "2")] [("x", "1")] 2 [] "${x}".data "2".data rfl
    rw [h]

/-- Closed instantiation of `c7_profile_precedence`. -/
theorem c7_profile_precedence_witness :
    lookupVariable [("x", "2")] [("x", "1")] "x" = "2" :=
  c7_profile_precedence.1 [("x", "2")] [("x", "1")] "x" "2" rfl

/-- The config of the C8 cycle scenario: profile-local `a = "x${a}"`, whose
replacement text contains `${a}` again. -/
def c8cfg : Config :=
  { metadata := ⟨"c", none, "0.1.0", none⟩
    «variables» := []
    profiles := [("default", ⟨[("a", "x${a}")], [], none⟩)]
    default_profile := "default"
    imports := []
    hyprland := ⟨none, [], [], [], []⟩ }

/-- C8: the resolution loop of `resolve_variables` terminates on every
input — every run is a finite fuel transcript (first conjunct) — and on the
cyclic scenario (`a ↦ "x${a}"`) it returns `"x${a}"`, a plain string with
the unresolved placeholder still present (remaining conjuncts); no error is
involved anywhere (`resolve_variables` returns a `String`, not a result
type). -/
theorem c8_resolution_terminates :
    (∀ (profVars globalVars : List (String × String)) (visited : List String)
        (s : List Char),
        ∃ fuel, resolveLoopF profVars globalVars fuel visited s =
          some (resolveLoop profVars globalVars visited s)) ∧
    resolveVariables c8cfg "${a}" none = "x${a}" ∧
    findPlaceholder (resolveVariables c8cfg "${a}" none).data =
      some ("${a}".data, "a".data) := by
  have hres : resolveVariables c8cfg "${a}" none = "x${a}" := by
    show (⟨resolveLoop [("a", "x${a}")] [] [] "${a}".data⟩ : String) = "x${a}"
    have h := resolveLoopF_sound [("a", "x${a}")] [] 2 [] "${a}".data "x${a}".data rfl
    rw [h]
  exact ⟨resolveLoopF_complete, hres, by rw [hres]; rfl⟩

/-! ## Registry invariants and basic lemmas -/

/-- The names a plugin's manifest depends on (empty for an unregistered
name). -/
def depNames (m : PluginManager) (x : String) : List String :=
  match lookupA m.plugins x with
  | some p => p.manifest.dependencies.map Prod.fst
  | none => []

/-- Two registry states exposing the same plugin keys and manifests (only
states may differ).  `enable_plugin` / `disable_plugin` mutate nothing
else. -/
def sameManifests (m m' : PluginManager) : Prop :=
  ∀ x, (lookupA m'.plugins x).map Plugin.manifest = (lookupA m.plugins x).map Plugin.manifest

/-- The spec's registry invariant: every enabled name is a key of the map
whose plugin has state `Enabled`, and no name is listed twice. -/
def WF (m : PluginManager) : Prop :=
  m.enabled_plugins.Nodup ∧
  ∀ n ∈ m.enabled_plugins, ∃ p, lookupA m.plugins n = some p ∧ p.state = .enabled

/-- Dependency closure of the enabled set: every enabled plugin's
dependencies are enabled. -/
def depClosed (m : PluginManager) : Prop :=
  ∀ q ∈ m.enabled_plugins, ∀ d ∈ depNames m q, d ∈ m.enabled_plugins

/-- `q` is a registered plugin whose manifest lists `name` as a dependency
(the way `disable_plugin` collects dependents). -/
def Dependent (m : PluginManager) (name q : String) : Prop :=
  match lookupA m.plugins q with
  | some p => containsKeyA p.manifest.dependencies name = true
  | none => False

/-- Transitive dependency through manifests: `DependsOn m a b` holds when
`b` is reachable from `a` through dependency edges. -/
inductive DependsOn (m : PluginManager) : String → String → Prop where
  | direct {a b : String} : b ∈ depNames m a → DependsOn m a b
  | step {a b c : String} : b ∈ depNames m a → DependsOn m b c → DependsOn m a c

/-- A chain of names in which every element is a manifest dependency of its
predecessor; models the in-progress stack of recursive `enable_plugin`
calls. -/
def StkChain (m : PluginManager) : List String → Prop
  | [] => True
  | [_] => True
  | a :: b :: rest => b ∈ depNames m a ∧ StkChain m (b :: rest)

theorem lookupA_setPluginState (ps : List (String × Plugin)) (n : String) (st : PluginState)
    (x : String) :
    lookupA (setPluginState ps n st) x =
      if x = n then (lookupA ps x).map (fun p => { p with state := st }) else lookupA ps x := by
  induction ps with
  | nil =>
    simp only [setPluginState, List.map_nil]
    split <;> rfl
  | cons kp rest ih =>
    obtain ⟨k, p⟩ := kp
    simp only [setPluginState, List.map_cons] at ih ⊢
    by_cases hkn : k = n
    · subst hkn
      rw [if_pos rfl, lookupA_cons, lookupA_cons]
      by_cases hkx : k = x
      · subst hkx
        rw [if_pos rfl, if_pos rfl, if_pos rfl]
        rfl
      · rw [if_neg hkx, if_neg hkx, ih]
    · rw [if_neg hkn, lookupA_cons, lookupA_cons]
      by_cases hkx : k = x
      · subst hkx
        rw [if_pos rfl, if_pos rfl, if_neg (fun h : k = n => hkn h)]
      · rw [if_neg hkx, if_neg hkx, ih]

theorem sameManifests_refl (m : PluginManager) : sameManifests m m := fun _ => rfl

theorem sameManifests_trans {m1 m2 m3 : PluginManager}
    (h12 : sameManifests m1 m2) (h23 : sameManifests m2 m3) : sameManifests m1 m3 :=
  fun x => (h23 x).trans (h12 x)

theorem sameManifests_setPluginState (m : PluginManager) (n : String) (st : PluginState)
    (e : List String) :
    sameManifests m ⟨setPluginState m.plugins n st, e⟩ := by
  intro x
  show (lookupA (setPluginState m.plugins n st) x).map Plugin.manifest = _
  rw [lookupA_setPluginState]
  split
  · cases lookupA m.plugins x <;> rfl
  · rfl

theorem sameManifests_depNames {m m' : PluginManager} (h : sameManifests m m') (x : String) :
    depNames m' x = depNames m x := by
  unfold depNames
  have hx := h x
  cases h1 : lookupA m.plugins x with
  | none =>
    rw [h1] at hx
    simp only [Option.map_none'] at hx
    cases h2 : lookupA m'.plugins x with
    | none => rfl
    | some p => rw [h2] at hx; simp at hx
  | some p =>
    rw [h1] at hx
    cases h2 : lookupA m'.plugins x with
    | none => rw [h2] at hx; simp at hx
    | some p' =>
      rw [h2] at hx
      simp only [Option.map_some', Option.some.injEq] at hx
      show List.map Prod.fst p'.manifest.dependencies = List.map Prod.fst p.manifest.dependencies
      rw [hx]

theorem sameManifests_containsKey {m m' : PluginManager} (h : sameManifests m m')
    (x : String) : containsKeyA m'.plugins x = containsKeyA m.plugins x := by
  unfold containsKeyA
  have hx := h x
  cases h1 : lookupA m.plugins x with
  | none =>
    rw [h1] at hx
    cases h2 : lookupA m'.plugins x with
    | none => rfl
    | some p => rw [h2] at hx; simp at hx
  | some p =>
    rw [h1] at hx
    cases h2 : lookupA m'.plugins x with
    | none => rw [h2] at hx; simp at hx
    | some p' => rfl

theorem sameManifests_stkChain {m m' : PluginManager} (h : sameManifests m m') :
    ∀ l : List String, StkChain m l → StkChain m' l := by
  intro l
  induction l with
  | nil => intro _; trivial
  | cons a rest ih =>
    cases rest with
    | nil => intro _; trivial
    | cons b t =>
      intro hc
      exact ⟨sameManifests_depNames h a ▸ hc.1, ih hc.2⟩

theorem sameManifests_dependent {m m' : PluginManager} (h : sameManifests m m')
    (name q : String) : Dependent m' name q ↔ Dependent m name q := by
  unfold Dependent
  have hx := h q
  cases h1 : lookupA m.plugins q with
  | none =>
    rw [h1] at hx
    cases h2 : lookupA m'.plugins q with
    | none => simp
    | some p => rw [h2] at hx; simp at hx
  | some p =>
    rw [h1] at hx
    cases h2 : lookupA m'.plugins q with
    | none => rw [h2] at hx; simp at hx
    | some p' =>
      rw [h2] at hx
      simp only [Option.map_some', Option.some.injEq] at hx
      show containsKeyA p'.manifest.dependencies name = true ↔
        containsKeyA p.manifest.dependencies name = true
      rw [hx]

theorem lookupA_mem {α : Type} (k : String) (v : α) :
    ∀ l : List (String × α), lookupA l k = some v → (k, v) ∈ l := by
  intro l
  induction l with
  | nil => intro h; exact absurd h (by simp)
  | cons kv rest ih =>
    intro h
    obtain ⟨k', v'⟩ := kv
    rw [lookupA] at h
    by_cases hk : k' = k
    · subst hk
      rw [if_pos rfl] at h
      obtain rfl : v' = v := by simpa using h
      exact List.mem_cons_self _ _
    · rw [if_neg hk] at h
      exact List.mem_cons_of_mem _ (ih h)

theorem lookupA_removeA_ne {α : Type} (key x : String) (hx : x ≠ key) :
    ∀ l : List (String × α), lookupA (removeA key l) x = lookupA l x := by
  intro l
  induction l with
  | nil => rfl
  | cons kv rest ih =>
    obtain ⟨k, v⟩ := kv
    by_cases hk : k = key
    · subst hk
      rw [removeA]
      rw [List.filter_cons, if_neg (by simp)]
      rw [lookupA, if_neg (fun h => hx h.symm)]
      exact ih
    · rw [removeA, List.filter_cons, if_pos (by simpa using hk)]
      rw [lookupA, lookupA]
      split
      · rfl
      · exact ih

/-- Chains step forward: every element of the prefix has a dependency that
is again in the chain. -/
theorem stkChain_mem_next (m : PluginManager) :
    ∀ (l : List String) (z x : String), StkChain m (l ++ [z]) → x ∈ l →
      ∃ d, d ∈ depNames m x ∧ d ∈ l ++ [z] := by
  intro l
  induction l with
  | nil => intro z x _ hx; exact absurd hx (by simp)
  | cons a l' ih =>
    intro z x hc hx
    have hshape : ∃ b t, l' ++ [z] = b :: t := by
      cases l' with
      | nil => exact ⟨z, [], rfl⟩
      | cons b t => exact ⟨b, t ++ [z], rfl⟩
    obtain ⟨b, t, hbt⟩ := hshape
    rw [List.cons_append, hbt] at hc
    obtain ⟨hab, hrest⟩ := hc
    rcases List.mem_cons.mp hx with rfl | hx'
    · refine ⟨b, hab, ?_⟩
      rw [List.cons_append, hbt]
      exact List.mem_cons_of_mem _ (List.mem_cons_self _ _)
    · obtain ⟨d, hd1, hd2⟩ := ih z x (by rw [hbt]; exact hrest) hx'
      refine ⟨d, hd1, ?_⟩
      rw [List.cons_append]
      exact List.mem_cons_of_mem _ hd2

/-- A chain extends by one more dependency edge at the end. -/
theorem stkChain_snoc (m : PluginManager) :
    ∀ (l : List String) (z d : String), StkChain m (l ++ [z]) → d ∈ depNames m z →
      StkChain m ((l ++ [z]) ++ [d]) := by
  intro l
  induction l with
  | nil => intro z d _ hd; exact ⟨hd, trivial⟩
  | cons a l' ih =>
    intro z d hc hd
    have hshape : ∃ b t, l' ++ [z] = b :: t := by
      cases l' with
      | nil => exact ⟨z, [], rfl⟩
      | cons b t => exact ⟨b, t ++ [z], rfl⟩
    obtain ⟨b, t, hbt⟩ := hshape
    rw [List.cons_append, hbt] at hc
    obtain ⟨hab, hrest⟩ := hc
    have := ih z d (by rw [hbt]; exact hrest) hd
    rw [List.cons_append, List.cons_append, hbt]
    rw [hbt] at this
    refine ⟨?_, ?_⟩
    · cases t with
      | nil => exact hab
      | cons u v => exact hab
    · rw [show (b :: t) ++ [d] = b :: (t ++ [d]) from rfl] at this
      exact this

/-! ## Enable: frame lemmas

All lemmas are proved by induction on the fuel: every recursive call of
`enablePlugin` / `enableDeps` runs at the predecessor fuel. -/

theorem enable_basic : ∀ fuel : Nat,
    (∀ m name m', (enablePlugin fuel m name).endState = some m' →
      (∃ ext, m'.enabled_plugins = m.enabled_plugins ++ ext) ∧
      sameManifests m m' ∧
      (∀ q, q ∉ m'.enabled_plugins → lookupA m'.plugins q = lookupA m.plugins q)) ∧
    (∀ m name L m', (enableDeps fuel m name L).endState = some m' →
      (∃ ext, m'.enabled_plugins = m.enabled_plugins ++ ext) ∧
      sameManifests m m' ∧
      (∀ q, q ∉ m'.enabled_plugins → lookupA m'.plugins q = lookupA m.plugins q)) := by
  intro fuel
  induction fuel with
  | zero =>
    constructor
    · intro m name m' h
      simp [enablePlugin, OpResult.endState] at h
    · intro m name L m' h
      simp [enableDeps, OpResult.endState] at h
  | succ n ih =>
    constructor
    · intro m name m' h
      rw [enablePlugin] at h
      cases hl : lookupA m.plugins name with
      | none =>
        rw [hl] at h
        simp only [OpResult.endState] at h
        obtain rfl : m = m' := by simpa using h
        exact ⟨⟨[], by simp⟩, sameManifests_refl m, fun q _ => rfl⟩
      | some plugin =>
        rw [hl] at h
        simp only at h
        by_cases hmem : name ∈ m.enabled_plugins
        · rw [if_pos hmem] at h
          simp only [OpResult.endState] at h
          obtain rfl : m = m' := by simpa using h
          exact ⟨⟨[], by simp⟩, sameManifests_refl m, fun q _ => rfl⟩
        · rw [if_neg hmem] at h
          exact ih.2 m name _ m' h
    · intro m name L m' h
      cases L with
      | nil =>
        rw [enableDeps] at h
        simp only [OpResult.endState] at h
        obtain rfl : _ = m' := by simpa using h
        refine ⟨⟨[name], rfl⟩, sameManifests_setPluginState m name .enabled _, ?_⟩
        intro q hq
        have hqname : q ≠ name :=
          fun he => hq (he ▸ List.mem_append_right _ (List.mem_cons_self _ _))
        show lookupA (setPluginState m.plugins name .enabled) q = lookupA m.plugins q
        rw [lookupA_setPluginState, if_neg hqname]
      | cons hd tl =>
        obtain ⟨depName, depReq⟩ := hd
        rw [enableDeps] at h
        cases hl : lookupA m.plugins depName with
        | none =>
          rw [hl] at h
          simp only [OpResult.endState] at h
          obtain rfl : m = m' := by simpa using h
          exact ⟨⟨[], by simp⟩, sameManifests_refl m, fun q _ => rfl⟩
        | some dep =>
          rw [hl] at h
          simp only at h
          cases hs : satisfiesRequirement dep.manifest.version depReq with
          | none =>
            rw [hs] at h
            simp only [OpResult.endState] at h
            obtain rfl : m = m' := by simpa using h
            exact ⟨⟨[], by simp⟩, sameManifests_refl m, fun q _ => rfl⟩
          | some b =>
            rw [hs] at h
            cases b with
            | false =>
              simp only [OpResult.endState] at h
              obtain rfl : m = m' := by simpa using h
              exact ⟨⟨[], by simp⟩, sameManifests_refl m, fun q _ => rfl⟩
            | true =>
              simp only at h
              by_cases hmem : depName ∈ m.enabled_plugins
              · rw [if_pos hmem] at h
                exact ih.2 m name tl m' h
              · rw [if_neg hmem] at h
                cases hr : enablePlugin n m depName with
                | ok m2 =>
                  rw [hr] at h
                  obtain ⟨A1, S1, F1⟩ := ih.1 m depName m2 (by rw [hr]; rfl)
                  obtain ⟨A2, S2, F2⟩ := ih.2 m2 name tl m' h
                  refine ⟨?_, sameManifests_trans S1 S2, ?_⟩
                  · obtain ⟨e1, he1⟩ := A1
                    obtain ⟨e2, he2⟩ := A2
                    exact ⟨e1 ++ e2, by rw [he2, he1, List.append_assoc]⟩
                  · intro q hq
                    have hq2 : q ∉ m2.enabled_plugins := by
                      obtain ⟨e2, he2⟩ := A2
                      rw [he2] at hq
                      exact fun hm => hq (List.mem_append_left _ hm)
                    rw [F2 q hq, F1 q hq2]
                | err e m2 =>
                  rw [hr] at h
                  simp only [OpResult.endState] at h
                  obtain rfl : m2 = m' := by simpa using h
                  exact ih.1 m depName _ (by rw [hr]; rfl)
                | diverge =>
                  rw [hr] at h
                  simp [OpResult.endState] at h

theorem sameManifests_lookup_none {m m' : PluginManager} (h : sameManifests m m')
    (x : String) (hx : lookupA m.plugins x = none) : lookupA m'.plugins x = none := by
  have := h x
  rw [hx] at this
  simp only [Option.map_none'] at this
  exact Option.map_eq_none'.mp this

theorem enable_ok_mem : ∀ fuel : Nat,
    (∀ m name m', enablePlugin fuel m name = .ok m' → name ∈ m'.enabled_plugins) ∧
    (∀ m name L m', enableDeps fuel m name L = .ok m' → name ∈ m'.enabled_plugins) := by
  intro fuel
  induction fuel with
  | zero =>
    constructor
    · intro m name m' h; simp [enablePlugin] at h
    · intro m name L m' h; simp [enableDeps] at h
  | succ n ih =>
    constructor
    · intro m name m' h
      rw [enablePlugin] at h
      cases hl : lookupA m.plugins name with
      | none => rw [hl] at h; exact absurd h (by simp)
      | some plugin =>
        rw [hl] at h
        simp only at h
        by_cases hmem : name ∈ m.enabled_plugins
        · rw [if_pos hmem] at h
          obtain rfl : m = m' := by simpa using h
          exact hmem
        · rw [if_neg hmem] at h
          exact ih.2 m name _ m' h
    · intro m name L m' h
      cases L with
      | nil =>
        rw [enableDeps] at h
        obtain rfl : _ = m' := by simpa using h
        exact List.mem_append_right _ (List.mem_cons_self _ _)
      | cons hd tl =>
        obtain ⟨depName, depReq⟩ := hd
        rw [enableDeps] at h
        cases hl : lookupA m.plugins depName with
        | none => rw [hl] at h; exact absurd h (by simp)
        | some dep =>
          rw [hl] at h
          simp only at h
          cases hs : satisfiesRequirement dep.manifest.version depReq with
          | none => rw [hs] at h; exact absurd h (by simp)
          | some b =>
            rw [hs] at h
            cases b with
            | false => exact absurd h (by simp)
            | true =>
              simp only at h
              by_cases hmem : depName ∈ m.enabled_plugins
              · rw [if_pos hmem] at h
                exact ih.2 m name tl m' h
              · rw [if_neg hmem] at h
                cases hr : enablePlugin n m depName with
                | ok m2 =>
                  rw [hr] at h
                  exact ih.2 m2 name tl m' h
                | err e m2 => rw [hr] at h; exact absurd h (by simp)
                | diverge => rw [hr] at h; exact absurd h (by simp)

/-- The result shape of a successful dependency loop: the plugin's name is
appended last, after every dependency of the processed list has entered the
enabled list. -/
theorem enable_deps_shape : ∀ fuel : Nat, ∀ m name L m',
    enableDeps fuel m name L = .ok m' →
    ∃ mid, m'.enabled_plugins = mid ++ [name] ∧ (∀ p ∈ L, p.1 ∈ mid) ∧
      (∃ ext, mid = m.enabled_plugins ++ ext) := by
  intro fuel
  induction fuel with
  | zero => intro m name L m' h; simp [enableDeps] at h
  | succ n ih =>
    intro m name L m' h
    cases L with
    | nil =>
      rw [enableDeps] at h
      obtain rfl : _ = m' := by simpa using h
      exact ⟨m.enabled_plugins, rfl, by simp, ⟨[], by simp⟩⟩
    | cons hd tl =>
      obtain ⟨depName, depReq⟩ := hd
      rw [enableDeps] at h
      cases hl : lookupA m.plugins depName with
      | none => rw [hl] at h; exact absurd h (by simp)
      | some dep =>
        rw [hl] at h
        simp only at h
        cases hs : satisfiesRequirement dep.manifest.version depReq with
        | none => rw [hs] at h; exact absurd h (by simp)
        | some b =>
          rw [hs] at h
          cases b with
          | false => exact absurd h (by simp)
          | true =>
            simp only at h
            by_cases hmem : depName ∈ m.enabled_plugins
            · rw [if_pos hmem] at h
              obtain ⟨mid, h1, h2, ext, h3⟩ := ih m name tl m' h
              refine ⟨mid, h1, ?_, ⟨ext, h3⟩⟩
              intro p hp
              rcases List.mem_cons.mp hp with rfl | hp'
              · rw [h3]; exact List.mem_append_left _ hmem
              · exact h2 p hp'
            · rw [if_neg hmem] at h
              cases hr : enablePlugin n m depName with
              | ok m2 =>
                rw [hr] at h
                obtain ⟨mid, h1, h2, ext, h3⟩ := ih m2 name tl m' h
                obtain ⟨e1, he1⟩ := (enable_basic n).1 m depName m2 (by rw [hr]; rfl) |>.1
                refine ⟨mid, h1, ?_, ⟨e1 ++ ext, by rw [h3, he1, List.append_assoc]⟩⟩
                intro p hp
                rcases List.mem_cons.mp hp with rfl | hp'
                · rw [h3]
                  exact List.mem_append_left _ ((enable_ok_mem n).1 m depName m2 hr)
                · exact h2 p hp'
              | err e m2 => rw [hr] at h; exact absurd h (by simp)
              | diverge => rw [hr] at h; exact absurd h (by simp)

/-! ## Enable: no in-progress name is ever pushed

The heart of the registry proofs: a ghost "stack" of in-progress enables
(each element a manifest dependency of its predecessor) never gains a
member of the enabled list during a nested call.  In particular the name a
`enable_plugin` call is working on cannot be pushed by its own dependency
loop, and a call whose target sits on the stack can never return `ok`. -/

theorem enable_stack : ∀ fuel : Nat,
    (∀ m z stk, (∀ s ∈ stk ++ [z], s ∉ m.enabled_plugins) → StkChain m (stk ++ [z]) →
      (∀ e m', enablePlugin fuel m z = .err e m' →
        ∀ s ∈ stk ++ [z], s ∉ m'.enabled_plugins) ∧
      (∀ m', enablePlugin fuel m z = .ok m' → ∀ s ∈ stk, s ∉ m'.enabled_plugins)) ∧
    (∀ m z L stk, (∀ s ∈ stk ++ [z], s ∉ m.enabled_plugins) → StkChain m (stk ++ [z]) →
      (∀ p ∈ L, p.1 ∈ depNames m z) →
      (z ∈ stk → ∃ p ∈ L, p.1 ∈ stk ++ [z]) →
      (∀ e m', enableDeps fuel m z L = .err e m' →
        ∀ s ∈ stk ++ [z], s ∉ m'.enabled_plugins) ∧
      (∀ m', enableDeps fuel m z L = .ok m' → ∀ s ∈ stk, s ∉ m'.enabled_plugins)) := by
  intro fuel
  induction fuel with
  | zero =>
    constructor
    · intro m z stk _ _
      exact ⟨fun e m' h => by simp [enablePlugin] at h,
        fun m' h => by simp [enablePlugin] at h⟩
    · intro m z L stk _ _ _ _
      exact ⟨fun e m' h => by simp [enableDeps] at h,
        fun m' h => by simp [enableDeps] at h⟩
  | succ n ih =>
    constructor
    · -- enablePlugin (n+1)
      intro m z stk hout hchain
      cases hl : lookupA m.plugins z with
      | none =>
        constructor
        · intro e m' h
          rw [enablePlugin] at h
          rw [hl] at h
          obtain ⟨-, rfl⟩ : PluginError.notFound z = e ∧ m = m' := by simpa using h
          exact hout
        · intro m' h
          rw [enablePlugin] at h
          rw [hl] at h
          exact absurd h (by simp)
      | some plugin =>
        by_cases hmem : z ∈ m.enabled_plugins
        · exact absurd hmem (hout z (List.mem_append_right _ (List.mem_cons_self _ _)))
        · have hsub : ∀ p ∈ plugin.manifest.dependencies, p.1 ∈ depNames m z := by
            intro p hp
            unfold depNames
            rw [hl]
            exact List.mem_map.mpr ⟨p, hp, rfl⟩
          have hpend : z ∈ stk → ∃ p ∈ plugin.manifest.dependencies, p.1 ∈ stk ++ [z] := by
            intro hz
            obtain ⟨d, hd1, hd2⟩ := stkChain_mem_next m stk z z hchain hz
            unfold depNames at hd1
            rw [hl] at hd1
            obtain ⟨p, hp, hps⟩ := List.mem_map.mp hd1
            exact ⟨p, hp, by rw [hps]; exact hd2⟩
          have hdeps := ih.2 m z plugin.manifest.dependencies stk hout hchain hsub hpend
          constructor
          · intro e m' h
            rw [enablePlugin] at h
            rw [hl] at h
            simp only [if_neg hmem] at h
            exact hdeps.1 e m' h
          · intro m' h
            rw [enablePlugin] at h
            rw [hl] at h
            simp only [if_neg hmem] at h
            exact hdeps.2 m' h
    · -- enableDeps (n+1)
      intro m z L stk hout hchain hsub hpend
      cases L with
      | nil =>
        constructor
        · intro e m' h
          rw [enableDeps] at h
          exact absurd h (by simp)
        · intro m' h
          rw [enableDeps] at h
          obtain rfl : _ = m' := by simpa using h
          have hznstk : z ∉ stk := by
            intro hz
            obtain ⟨p, hp, -⟩ := hpend hz
            exact absurd hp (by simp)
          intro s hs
          show s ∉ m.enabled_plugins ++ [z]
          intro hsmem
          rcases List.mem_append.mp hsmem with h1 | h1
          · exact hout s (List.mem_append_left _ hs) h1
          · obtain rfl : s = z := by simpa using h1
            exact hznstk hs
      | cons hd tl =>
        obtain ⟨depName, depReq⟩ := hd
        cases hl : lookupA m.plugins depName with
        | none =>
          constructor
          · intro e m' h
            rw [enableDeps] at h
            rw [hl] at h
            obtain ⟨-, rfl⟩ : PluginError.missingDependency z depName = e ∧ m = m' := by
              simpa using h
            exact hout
          · intro m' h
            rw [enableDeps] at h
            rw [hl] at h
            exact absurd h (by simp)
        | some dep =>
          cases hs : satisfiesRequirement dep.manifest.version depReq with
          | none =>
            constructor
            · intro e m' h
              rw [enableDeps] at h
              rw [hl] at h
              simp only at h
              rw [hs] at h
              obtain ⟨-, rfl⟩ : PluginError.invalidRequirement z depName = e ∧ m = m' := by
                simpa using h
              exact hout
            · intro m' h
              rw [enableDeps] at h
              rw [hl] at h
              simp only at h
              rw [hs] at h
              exact absurd h (by simp)
          | some b =>
            cases b with
            | false =>
              constructor
              · intro e m' h
                rw [enableDeps] at h
                rw [hl] at h
                simp only at h
                rw [hs] at h
                obtain ⟨-, rfl⟩ : PluginError.versionMismatch z depName depReq = e ∧ m = m' := by
                  simpa using h
                exact hout
              · intro m' h
                rw [enableDeps] at h
                rw [hl] at h
                simp only at h
                rw [hs] at h
                exact absurd h (by simp)
            | true =>
              by_cases hmem : depName ∈ m.enabled_plugins
              · have hsub' : ∀ p ∈ tl, p.1 ∈ depNames m z :=
                  fun p hp => hsub p (List.mem_cons_of_mem _ hp)
                have hpend' : z ∈ stk → ∃ p ∈ tl, p.1 ∈ stk ++ [z] := by
                  intro hz
                  obtain ⟨p, hp, hp2⟩ := hpend hz
                  rcases List.mem_cons.mp hp with rfl | hp'
                  · exact absurd hmem (hout _ hp2)
                  · exact ⟨p, hp', hp2⟩
                have hdeps := ih.2 m z tl stk hout hchain hsub' hpend'
                constructor
                · intro e m' h
                  rw [enableDeps] at h
                  rw [hl] at h
                  simp only at h
                  rw [hs] at h
                  simp only [if_pos hmem] at h
                  exact hdeps.1 e m' h
                · intro m' h
                  rw [enableDeps] at h
                  rw [hl] at h
                  simp only at h
                  rw [hs] at h
                  simp only [if_pos hmem] at h
                  exact hdeps.2 m' h
              · have hout' : ∀ s ∈ (stk ++ [z]) ++ [depName], s ∉ m.enabled_plugins := by
                  intro s hsmem
                  rcases List.mem_append.mp hsmem with h1 | h1
                  · exact hout s h1
                  · obtain rfl : s = depName := by simpa using h1
                    exact hmem
                have hchain' : StkChain m ((stk ++ [z]) ++ [depName]) :=
                  stkChain_snoc m stk z depName hchain
                    (hsub (depName, depReq) (List.mem_cons_self _ _))
                have hplug := ih.1 m depName (stk ++ [z]) hout' hchain'
                cases hr : enablePlugin n m depName with
                | diverge =>
                  constructor
                  · intro e m' h
                    rw [enableDeps] at h
                    rw [hl] at h
                    simp only at h
                    rw [hs] at h
                    simp only [if_neg hmem, hr] at h
                    exact absurd h (by simp)
                  · intro m' h
                    rw [enableDeps] at h
                    rw [hl] at h
                    simp only at h
                    rw [hs] at h
                    simp only [if_neg hmem, hr] at h
                    exact absurd h (by simp)
                | err e0 m2 =>
                  have hstkout : ∀ s ∈ stk ++ [z], s ∉ m2.enabled_plugins := by
                    intro s hsmem
                    exact hplug.1 e0 m2 hr s (List.mem_append_left _ hsmem)
                  constructor
                  · intro e m' h
                    rw [enableDeps] at h
                    rw [hl] at h
                    simp only at h
                    rw [hs] at h
                    simp only [if_neg hmem, hr] at h
                    obtain ⟨-, rfl⟩ : e0 = e ∧ m2 = m' := by simpa using h
                    exact hstkout
                  · intro m' h
                    rw [enableDeps] at h
                    rw [hl] at h
                    simp only at h
                    rw [hs] at h
                    simp only [if_neg hmem, hr] at h
                    exact absurd h (by simp)
                | ok m2 =>
                  have hout2 : ∀ s ∈ stk ++ [z], s ∉ m2.enabled_plugins := hplug.2 m2 hr
                  have hdnot : depName ∉ stk ++ [z] := by
                    intro hd
                    exact hout2 depName hd ((enable_ok_mem n).1 m depName m2 hr)
                  have hsm : sameManifests m m2 :=
                    ((enable_basic n).1 m depName m2 (by rw [hr]; rfl)).2.1
                  have hchain2 : StkChain m2 (stk ++ [z]) :=
                    sameManifests_stkChain hsm _ hchain
                  have hsub2 : ∀ p ∈ tl, p.1 ∈ depNames m2 z := by
                    intro p hp
                    rw [sameManifests_depNames hsm z]
                    exact hsub p (List.mem_cons_of_mem _ hp)
                  have hpend2 : z ∈ stk → ∃ p ∈ tl, p.1 ∈ stk ++ [z] := by
                    intro hz
                    obtain ⟨p, hp, hp2⟩ := hpend hz
                    rcases List.mem_cons.mp hp with rfl | hp'
                    · exact absurd hp2 hdnot
                    · exact ⟨p, hp', hp2⟩
                  have hdeps := ih.2 m2 z tl stk hout2 hchain2 hsub2 hpend2
                  constructor
                  · intro e m' h
                    rw [enableDeps] at h
                    rw [hl] at h
                    simp only at h
                    rw [hs] at h
                    simp only [if_neg hmem, hr] at h
                    exact hdeps.1 e m' h
                  · intro m' h
                    rw [enableDeps] at h
                    rw [hl] at h
                    simp only at h
                    rw [hs] at h
                    simp only [if_neg hmem, hr] at h
                    exact hdeps.2 m' h

theorem enable_WF : ∀ fuel : Nat,
    (∀ m name m', WF m → (enablePlugin fuel m name).endState = some m' → WF m') ∧
    (∀ m name L m', WF m → name ∉ m.enabled_plugins → containsKeyA m.plugins name = true →
      (∀ p ∈ L, p.1 ∈ depNames m name) →
      (enableDeps fuel m name L).endState = some m' → WF m') := by
  intro fuel
  induction fuel with
  | zero =>
    constructor
    · intro m name m' _ h; simp [enablePlugin, OpResult.endState] at h
    · intro m name L m' _ _ _ _ h; simp [enableDeps, OpResult.endState] at h
  | succ n ih =>
    constructor
    · intro m name m' hwf h
      rw [enablePlugin] at h
      cases hl : lookupA m.plugins name with
      | none =>
        rw [hl] at h
        simp only [OpResult.endState] at h
        obtain rfl : m = m' := by simpa using h
        exact hwf
      | some plugin =>
        rw [hl] at h
        simp only at h
        by_cases hmem : name ∈ m.enabled_plugins
        · rw [if_pos hmem] at h
          simp only [OpResult.endState] at h
          obtain rfl : m = m' := by simpa using h
          exact hwf
        · rw [if_neg hmem] at h
          refine ih.2 m name plugin.manifest.dependencies m' hwf hmem ?_ ?_ h
          · unfold containsKeyA
            rw [hl]
            rfl
          · intro p hp
            unfold depNames
            rw [hl]
            exact List.mem_map.mpr ⟨p, hp, rfl⟩
    · intro m name L m' hwf hname hkey hsub h
      cases L with
      | nil =>
        rw [enableDeps] at h
        simp only [OpResult.endState] at h
        obtain rfl : _ = m' := by simpa using h
        obtain ⟨p, hp⟩ : ∃ p, lookupA m.plugins name = some p := by
          unfold containsKeyA at hkey
          cases hlp : lookupA m.plugins name with
          | none => rw [hlp] at hkey; simp at hkey
          | some p => exact ⟨p, rfl⟩
        constructor
        · show (m.enabled_plugins ++ [name]).Nodup
          simp [List.nodup_append, hwf.1, hname]
        · intro q hq
          show ∃ p', lookupA (setPluginState m.plugins name .enabled) q = some p' ∧
            p'.state = .enabled
          rcases List.mem_append.mp hq with hq1 | hq1
          · have hqname : q ≠ name := fun he => hname (he ▸ hq1)
            obtain ⟨pq, hpq1, hpq2⟩ := hwf.2 q hq1
            rw [lookupA_setPluginState, if_neg hqname, hpq1]
            exact ⟨pq, rfl, hpq2⟩
          · obtain rfl : q = name := by simpa using hq1
            rw [lookupA_setPluginState, if_pos rfl, hp]
            exact ⟨{ p with state := .enabled }, rfl, rfl⟩
      | cons hd tl =>
        obtain ⟨depName, depReq⟩ := hd
        rw [enableDeps] at h
        cases hl : lookupA m.plugins depName with
        | none =>
          rw [hl] at h
          simp only [OpResult.endState] at h
          obtain rfl : m = m' := by simpa using h
          exact hwf
        | some dep =>
          rw [hl] at h
          simp only at h
          cases hs : satisfiesRequirement dep.manifest.version depReq with
          | none =>
            rw [hs] at h
            simp only [OpResult.endState] at h
            obtain rfl : m = m' := by simpa using h
            exact hwf
          | some b =>
            rw [hs] at h
            cases b with
            | false =>
              simp only [OpResult.endState] at h
              obtain rfl : m = m' := by simpa using h
              exact hwf
            | true =>
              simp only at h
              by_cases hmem : depName ∈ m.enabled_plugins
              · rw [if_pos hmem] at h
                exact ih.2 m name tl m' hwf hname hkey
                  (fun p hp => hsub p (List.mem_cons_of_mem _ hp)) h
              · rw [if_neg hmem] at h
                cases hr : enablePlugin n m depName with
                | ok m2 =>
                  rw [hr] at h
                  have hwf2 : WF m2 := ih.1 m depName m2 hwf (by rw [hr]; rfl)
                  have hsm : sameManifests m m2 :=
                    ((enable_basic n).1 m depName m2 (by rw [hr]; rfl)).2.1
                  have hout' : ∀ s ∈ [name] ++ [depName], s ∉ m.enabled_plugins := by
                    intro s hsmem
                    rcases List.mem_append.mp hsmem with h1 | h1
                    · obtain rfl : s = name := by simpa using h1
                      exact hname
                    · obtain rfl : s = depName := by simpa using h1
                      exact hmem
                  have hchain' : StkChain m ([name] ++ [depName]) :=
                    ⟨hsub (depName, depReq) (List.mem_cons_self _ _), trivial⟩
                  have hname2 : name ∉ m2.enabled_plugins :=
                    ((enable_stack n).1 m depName [name] hout' hchain').2 m2 hr name
                      (List.mem_cons_self _ _)
                  refine ih.2 m2 name tl m' hwf2 hname2 ?_ ?_ h
                  · rw [sameManifests_containsKey hsm]
                    exact hkey
                  · intro p hp
                    rw [sameManifests_depNames hsm]
                    exact hsub p (List.mem_cons_of_mem _ hp)
                | err e m2 =>
                  rw [hr] at h
                  simp only [OpResult.endState] at h
                  obtain rfl : m2 = m' := by simpa using h
                  exact ih.1 m depName _ hwf (by rw [hr]; rfl)
                | diverge =>
                  rw [hr] at h
                  simp [OpResult.endState] at h

theorem enable_deps_missing_not_ok : ∀ fuel : Nat, ∀ m z L m',
    (∃ p ∈ L, lookupA m.plugins p.1 = none) → enableDeps fuel m z L ≠ .ok m' := by
  intro fuel
  induction fuel with
  | zero => intro m z L m' _ h; simp [enableDeps] at h
  | succ n ih =>
    intro m z L m' hmiss h
    cases L with
    | nil =>
      obtain ⟨p, hp, -⟩ := hmiss
      exact absurd hp (by simp)
    | cons hd tl =>
      obtain ⟨depName, depReq⟩ := hd
      rw [enableDeps] at h
      cases hl : lookupA m.plugins depName with
      | none => rw [hl] at h; exact absurd h (by simp)
      | some dep =>
        rw [hl] at h
        simp only at h
        have hmiss' : ∃ p ∈ tl, lookupA m.plugins p.1 = none := by
          obtain ⟨p, hp, hpn⟩ := hmiss
          rcases List.mem_cons.mp hp with rfl | hp'
          · rw [hl] at hpn
            exact absurd hpn (by simp)
          · exact ⟨p, hp', hpn⟩
        cases hs : satisfiesRequirement dep.manifest.version depReq with
        | none => rw [hs] at h; exact absurd h (by simp)
        | some b =>
          rw [hs] at h
          cases b with
          | false => exact absurd h (by simp)
          | true =>
            simp only at h
            by_cases hmem : depName ∈ m.enabled_plugins
            · rw [if_pos hmem] at h
              exact ih m z tl m' hmiss' h
            · rw [if_neg hmem] at h
              cases hr : enablePlugin n m depName with
              | ok m2 =>
                rw [hr] at h
                have hsm : sameManifests m m2 :=
                  ((enable_basic n).1 m depName m2 (by rw [hr]; rfl)).2.1
                refine ih m2 z tl m' ?_ h
                obtain ⟨p, hp', hpn⟩ := hmiss'
                exact ⟨p, hp', sameManifests_lookup_none hsm p.1 hpn⟩
              | err e m2 => rw [hr] at h; exact absurd h (by simp)
              | diverge => rw [hr] at h; exact absurd h (by simp)

/-! ## Claim C6: merge semantics of `Config::merge_config` -/

theorem fillFold_preserves {α : Type} (k : String) (v : α) :
    ∀ (other acc : List (String × α)), lookupA acc k = some v →
      lookupA
        (other.foldl
          (fun acc kv => if containsKeyA acc kv.1 then acc else insertA kv.1 kv.2 acc) acc)
        k = some v := by
  intro other
  induction other with
  | nil => intro acc h; exact h
  | cons kv rest ih =>
    intro acc h
    rw [List.foldl_cons]
    apply ih
    by_cases hc : containsKeyA acc kv.1 = true
    · rw [if_pos hc]; exact h
    · rw [if_neg hc]
      have hne : k ≠ kv.1 := by
        intro he
        subst he
        unfold containsKeyA at hc
        rw [h] at hc
        simp at hc
      rw [lookupA_insertA_ne kv.1 kv.2 k hne]
      exact h

theorem insertFold_lookup_notMem {α : Type} (k : String) :
    ∀ (other acc : List (String × α)), k ∉ other.map Prod.fst →
      lookupA (other.foldl (fun acc kv => insertA kv.1 kv.2 acc) acc) k = lookupA acc k := by
  intro other
  induction other with
  | nil => intro acc _; rfl
  | cons kv rest ih =>
    intro acc h
    simp only [List.map_cons, List.mem_cons] at h
    push_neg at h
    rw [List.foldl_cons, ih _ h.2, lookupA_insertA_ne kv.1 kv.2 k h.1]

theorem insertFold_lookup_mem {α : Type} (k : String) (w : α) :
    ∀ (other acc : List (String × α)), (other.map Prod.fst).Nodup → (k, w) ∈ other →
      lookupA (other.foldl (fun acc kv => insertA kv.1 kv.2 acc) acc) k = some w := by
  intro other
  induction other with
  | nil => intro acc _ hmem; exact absurd hmem (by simp)
  | cons kv rest ih =>
    intro acc hnd hmem
    simp only [List.map_cons, List.nodup_cons] at hnd
    rcases List.mem_cons.mp hmem with hhead | htail
    · obtain ⟨rfl, rfl⟩ : kv.1 = k ∧ kv.2 = w := by
        constructor
        · exact congrArg Prod.fst hhead.symm
        · exact congrArg Prod.snd hhead.symm
      rw [List.foldl_cons, insertFold_lookup_notMem _ _ _ hnd.1, lookupA_insertA_self]
    · rw [List.foldl_cons]
      exact ih _ hnd.2 htail

theorem mergeVariables_true_eq (t o : List (String × String)) :
    mergeVariables t o true =
      o.foldl (fun acc kv => if containsKeyA acc kv.1 then acc else insertA kv.1 kv.2 acc) t := by
  unfold mergeVariables
  simp only [Bool.true_and]

theorem mergeVariables_false_eq (t o : List (String × String)) :
    mergeVariables t o false = o.foldl (fun acc kv => insertA kv.1 kv.2 acc) t := by
  unfold mergeVariables
  simp only [Bool.false_and, Bool.false_eq_true, if_false]

theorem mergeProfiles_false_eq (t o : List (String × Profile)) :
    mergeProfiles t o false = o.foldl (fun acc np => insertA np.1 np.2 acc) t := by
  unfold mergeProfiles
  simp only [Bool.false_and, Bool.false_eq_true, if_false]

theorem mergeProfiles_true_preserves (pn k v : String) :
    ∀ (other target : List (String × Profile)) (prof : Profile),
      lookupA target pn = some prof → lookupA prof.«variables» k = some v →
      ∃ prof', lookupA (mergeProfiles target other true) pn = some prof' ∧
        lookupA prof'.«variables» k = some v := by
  intro other
  induction other with
  | nil => intro target prof h1 h2; exact ⟨prof, h1, h2⟩
  | cons np rest ih =>
    intro target prof h1 h2
    unfold mergeProfiles
    rw [List.foldl_cons]
    rw [show ∀ l : List (String × Profile), ∀ init,
        List.foldl (fun acc np =>
          if true && containsKeyA acc np.1 then
            match lookupA acc np.1 with
            | some existing => insertA np.1 (mergeProfileInto existing np.2) acc
            | none => acc
          else insertA np.1 np.2 acc) init l = mergeProfiles init l true from
      fun l init => by unfold mergeProfiles; rfl]
    by_cases hpn : np.1 = pn
    · have hc : containsKeyA target np.1 = true := by
        unfold containsKeyA
        rw [hpn, h1]
        rfl
      rw [if_pos (by simp [hc]), hpn, h1]
      refine ih _ (mergeProfileInto prof np.2) ?_ ?_
      · exact lookupA_insertA_self pn (mergeProfileInto prof np.2) target
      · unfold mergeProfileInto
        exact fillFold_preserves k v np.2.«variables» prof.«variables» h2
    · by_cases hc : containsKeyA target np.1 = true
      · rw [if_pos (by simp [hc])]
        revert hc
        cases hl : lookupA target np.1 with
        | none => intro hc; unfold containsKeyA at hc; rw [hl] at hc; simp at hc
        | some existing =>
          intro _
          refine ih _ prof ?_ h2
          rw [lookupA_insertA_ne np.1 (mergeProfileInto existing np.2) pn
            (fun h => hpn h.symm)]
          exact h1
      · rw [if_neg (by simpa using hc)]
        refine ih _ prof ?_ h2
        rw [lookupA_insertA_ne np.1 np.2 pn (fun h => hpn h.symm)]
        exact h1

/-- C6 (amended): in `merge_config`, a merge with `merge=true` never changes
the value of a key already present in the target — globally, per profile,
and in the hyprland theme map (conjuncts 1–3); a merge with `merge=false`
replaces the target's value on every conflicting key of the global
variables and of the profiles map (conjuncts 4–5), and replaces the
hyprland block (theme map included) exactly when the target has no
`config_path`, keeping the target's block untouched otherwise
(conjuncts 6–7). -/
theorem c6_merge_semantics :
    (∀ (t o : Config) (k v : String), lookupA t.«variables» k = some v →
        lookupA (mergeConfig t o true).«variables» k = some v) ∧
    (∀ (t o : Config) (pn k v : String) (prof : Profile),
        lookupA t.profiles pn = some prof → lookupA prof.«variables» k = some v →
        ∃ prof', lookupA (mergeConfig t o true).profiles pn = some prof' ∧
          lookupA prof'.«variables» k = some v) ∧
    (∀ (t o : Config) (k v : String), lookupA t.hyprland.theme k = some v →
        lookupA (mergeConfig t o true).hyprland.theme k = some v) ∧
    (∀ (t o : Config) (k w : String), (o.«variables».map Prod.fst).Nodup →
        (k, w) ∈ o.«variables» →
        lookupA (mergeConfig t o false).«variables» k = some w) ∧
    (∀ (t o : Config) (pn : String) (iprof : Profile), (o.profiles.map Prod.fst).Nodup →
        (pn, iprof) ∈ o.profiles →
        lookupA (mergeConfig t o false).profiles pn = some iprof) ∧
    (∀ t o : Config, t.hyprland.config_path = none →
        (mergeConfig t o false).hyprland = o.hyprland) ∧
    (∀ (t o : Config) (p : String), t.hyprland.config_path = some p →
        (mergeConfig t o false).hyprland = t.hyprland) := by
  refine ⟨?_, ?_, ?_, ?_, ?_, ?_, ?_⟩
  · intro t o k v h
    show lookupA (mergeVariables t.«variables» o.«variables» true) k = some v
    rw [mergeVariables_true_eq]
    exact fillFold_preserves k v _ _ h
  · intro t o pn k v prof h1 h2
    exact mergeProfiles_true_preserves pn k v o.profiles t.profiles prof h1 h2
  · intro t o k v h
    show lookupA
      (if true = true then
        { t.hyprland with
          modules := t.hyprland.modules ++ o.hyprland.modules
          theme := mergeTheme t.hyprland.theme o.hyprland.theme
          keybindings := t.hyprland.keybindings ++ o.hyprland.keybindings
          autostart := t.hyprland.autostart ++ o.hyprland.autostart }
      else if t.hyprland.config_path = none then o.hyprland else t.hyprland).theme k = some v
    rw [if_pos rfl]
    show lookupA (mergeTheme t.hyprland.theme o.hyprland.theme) k = some v
    unfold mergeTheme
    exact fillFold_preserves k v _ _ h
  · intro t o k w hnd hmem
    show lookupA (mergeVariables t.«variables» o.«variables» false) k = some w
    rw [mergeVariables_false_eq]
    exact insertFold_lookup_mem k w _ _ hnd hmem
  · intro t o pn iprof hnd hmem
    show lookupA (mergeProfiles t.profiles o.profiles false) pn = some iprof
    rw [mergeProfiles_false_eq]
    exact insertFold_lookup_mem pn iprof _ _ hnd hmem
  · intro t o h
    simp [mergeConfig, h]
  · intro t o p h
    simp [mergeConfig, h]

/-- The targets of the C6 counterexample: the target config has
`config_path` set and theme key `k = "old"`; the import carries `k = "new"`
and `merge = false`. -/
def c6t : Config :=
  { metadata := ⟨"t", none, "0.1.0", none⟩
    «variables» := []
    profiles := []
    default_profile := "default"
    imports := []
    hyprland := ⟨some "hyprland.conf", [], [("k", "old")], [], []⟩ }

/-- The imported config of the C6 counterexample. -/
def c6o : Config :=
  { metadata := ⟨"o", none, "0.1.0", none⟩
    «variables» := []
    profiles := []
    default_profile := "default"
    imports := []
    hyprland := ⟨none, [], [("k", "new")], [], []⟩ }

/-- C6 counterexample: with `merge=false`, the conflicting hyprland theme
key `"k"` is NOT replaced by the imported value, because the target already
has a `config_path`: the merge keeps `"old"` although the import carries
`"new"`. -/
theorem c6_counterexample :
    lookupA c6t.hyprland.theme "k" = some "old" ∧
    lookupA c6o.hyprland.theme "k" = some "new" ∧
    lookupA (mergeConfig c6t c6o false).hyprland.theme "k" = some "old" ∧
    lookupA (mergeConfig c6t c6o false).hyprland.theme "k" ≠ some "new" := by
  refine ⟨rfl, rfl, rfl, by decide⟩

/-- Closed instantiation of `c6_merge_semantics` on small configs. -/
theorem c6_merge_semantics_witness :
    lookupA (mergeConfig c6t c6o true).hyprland.theme "k" = some "old" ∧
    lookupA (mergeConfig c6t c6o false).hyprland.theme "k" = some "old" ∧
    lookupA
      (mergeConfig
        { c6t with «variables» := [("g", "tv")], profiles := [("p", ⟨[("x", "pv")], [], none⟩)] }
        { c6o with «variables» := [("g", "ov")], profiles := [("p", ⟨[("x", "ov")], [], none⟩)] }
        true).«variables» "g" = some "tv" ∧
    lookupA
      (mergeConfig
        { c6t with «variables» := [("g", "tv")] }
        { c6o with «variables» := [("g", "ov")] }
        false).«variables» "g" = some "ov" ∧
    (∃ prof', lookupA
        (mergeConfig
          { c6t with profiles := [("p", ⟨[("x", "pv")], [], none⟩)] }
          { c6o with profiles := [("p", ⟨[("x", "ov")], [], none⟩)] }
          true).profiles "p" = some prof' ∧ lookupA prof'.«variables» "x" = some "pv") ∧
    lookupA
      (mergeConfig
        { c6t with profiles := [("p", ⟨[("x", "pv")], [], none⟩)] }
        { c6o with profiles := [("p", ⟨[("x", "ov")], [], none⟩)] }
        false).profiles "p" = some ⟨[("x", "ov")], [], none⟩ ∧
    (mergeConfig c6o c6t false).hyprland = c6t.hyprland ∧
    (mergeConfig c6t c6o false).hyprland = c6t.hyprland := by
  refine ⟨?_, ?_, ?_, ?_, ?_, ?_, ?_, ?_⟩
  · exact c6_merge_semantics.2.2.1 c6t c6o "k" "old" rfl
  · exact (c6_merge_semantics.2.2.2.2.2.2 c6t c6o "hyprland.conf" rfl) ▸ rfl
  · exact c6_merge_semantics.1 _ _ "g" "tv" rfl
  · exact c6_merge_semantics.2.2.2.1 _ _ "g" "ov" (by decide) (by decide)
  · exact c6_merge_semantics.2.1 _ _ "p" "x" "pv" ⟨[("x", "pv")], [], none⟩ rfl rfl
  · exact c6_merge_semantics.2.2.2.2.1 _ _ "p" ⟨[("x", "ov")], [], none⟩ (by decide) (by decide)
  · exact c6_merge_semantics.2.2.2.2.2.1 c6o c6t rfl
  · exact c6_merge_semantics.2.2.2.2.2.2 c6t c6o "hyprland.conf" rfl

/-! ## Claim C10: the frame of `Theme::merge` -/

/-- C10: `Theme::merge` only rewrites the `colors`, `variables` and
`metadata` maps; the receiver's `name`, `author`, `description`, `version`
and `extends` fields are untouched. -/
theorem c10_theme_merge_frame (t other : Theme) :
    (t.merge other).name = t.name ∧
    (t.merge other).author = t.author ∧
    (t.merge other).description = t.description ∧
    (t.merge other).version = t.version ∧
    (t.merge other).extendsBase = t.extendsBase :=
  ⟨rfl, rfl, rfl, rfl, rfl⟩

/-! ## Claim C9: hook dispatch order is sorted by priority -/

/-- C9: for every registry state and hook name, the sequence of plugins
`execute_hook` invokes is non-decreasing in the hook's declared priority:
any earlier plugin's priority is at most any later plugin's. -/
theorem c9_hook_dispatch_sorted (m : PluginManager) (hookName : String) :
    (hookDispatchOrder m hookName).Pairwise
      (fun a b => hookPriorityOf a hookName ≤ hookPriorityOf b hookName) := by
  have h := @List.sorted_mergeSort Plugin
    (fun a b => decide (hookPriorityOf a hookName ≤ hookPriorityOf b hookName))
    (fun a b c hab hbc => by
      simp only [decide_eq_true_eq] at hab hbc ⊢
      omega)
    (fun a b => by
      simp only [Bool.or_eq_true, decide_eq_true_eq]
      omega)
    ((getEnabledPlugins m).filter
      (fun p => p.manifest.hooks.any (fun h => h.name = hookName)))
  unfold hookDispatchOrder
  exact h.imp (fun hab => by simpa using hab)

/-! ## Claims C1, C5, C4: enable ordering, cycles, missing dependencies -/

/-- Manifest of plugin `A` of the C1 scenario (version `1.2.0`, no
dependencies). -/
def mfA : PluginManifest := ⟨"A", none, "1.2.0", none, none, none, none, [], [], []⟩

/-- Manifest of plugin `B` of the C1 scenario (depends on `A ^1.0.0`). -/
def mfB : PluginManifest := ⟨"B", none, "0.1.0", none, none, none, none, [("A", "^1.0.0")], [], []⟩

/-- The C1 scenario registry: `A` and `B` installed, nothing enabled. -/
def regAB : PluginManager :=
  ⟨[("A", ⟨mfA, "plugins/A", .installed⟩), ("B", ⟨mfB, "plugins/B", .installed⟩)], []⟩

/-- The C1 scenario registry after `enable_plugin("B")`. -/
def regABdone : PluginManager :=
  ⟨[("A", ⟨mfA, "plugins/A", .enabled⟩), ("B", ⟨mfB, "plugins/B", .enabled⟩)], ["A", "B"]⟩

/-- C1: whenever `enable_plugin` succeeds on a not-yet-enabled plugin, the
plugin's name is appended last and every one of its manifest dependencies
is already in the enabled list at that point (first conjunct, the general
depth-first ordering); in the two-plugin scenario enabling `B` succeeds,
enables `A` first and leaves `enabled_plugins = ["A", "B"]` (second and
third conjuncts). -/
theorem c1_enable_order :
    (∀ (fuel : Nat) (m : PluginManager) (name : String) (m' : PluginManager),
        enablePlugin fuel m name = .ok m' → name ∉ m.enabled_plugins →
        ∃ l, m'.enabled_plugins = l ++ [name] ∧ ∀ d ∈ depNames m name, d ∈ l) ∧
    enablePlugin 5 regAB "B" = .ok regABdone ∧
    regABdone.enabled_plugins = ["A", "B"] := by
  refine ⟨?_, rfl, rfl⟩
  intro fuel m name m' hok hname
  cases fuel with
  | zero => simp [enablePlugin] at hok
  | succ n =>
    rw [enablePlugin] at hok
    cases hl : lookupA m.plugins name with
    | none => rw [hl] at hok; exact absurd hok (by simp)
    | some plugin =>
      rw [hl] at hok
      simp only at hok
      rw [if_neg hname] at hok
      obtain ⟨mid, h1, h2, -⟩ := enable_deps_shape n m name plugin.manifest.dependencies m' hok
      refine ⟨mid, h1, ?_⟩
      intro d hd
      unfold depNames at hd
      rw [hl] at hd
      obtain ⟨p, hp, hps⟩ := List.mem_map.mp hd
      exact hps ▸ h2 p hp

/-- Closed instantiation of the general part of `c1_enable_order` on the
scenario run. -/
theorem c1_enable_order_witness :
    ∃ l, regABdone.enabled_plugins = l ++ ["B"] ∧ ∀ d ∈ depNames regAB "B", d ∈ l :=
  c1_enable_order.1 5 regAB "B" regABdone c1_enable_order.2.1 (by decide)

/-- Manifest of cycle plugin `A` (depends on `B`). -/
def mfCycA : PluginManifest := ⟨"A", none, "1.0.0", none, none, none, none, [("B", "^1.0.0")], [], []⟩

/-- Manifest of cycle plugin `B` (depends on `A`). -/
def mfCycB : PluginManifest := ⟨"B", none, "1.0.0", none, none, none, none, [("A", "^1.0.0")], [], []⟩

/-- The C5 registry: two installed plugins whose dependencies form a cycle
with satisfied version requirements. -/
def regCyc : PluginManager :=
  ⟨[("A", ⟨mfCycA, "plugins/A", .installed⟩), ("B", ⟨mfCycB, "plugins/B", .installed⟩)], []⟩

theorem c5aux : ∀ fuel : Nat,
    enableDeps fuel regCyc "A" [("B", "^1.0.0")] = .diverge ∧
    enableDeps fuel regCyc "B" [("A", "^1.0.0")] = .diverge := by
  intro fuel
  induction fuel using Nat.strong_induction_on with
  | _ fuel ih =>
    match fuel with
    | 0 => exact ⟨rfl, rfl⟩
    | n + 1 =>
      constructor
      · show (match enablePlugin n regCyc "B" with
            | .ok m2 => enableDeps n m2 "A" []
            | r => r) = .diverge
        match n with
        | 0 => rfl
        | n' + 1 =>
          show (match enableDeps n' regCyc "B" [("A", "^1.0.0")] with
              | .ok m2 => enableDeps (n' + 1) m2 "A" []
              | r => r) = .diverge
          rw [(ih n' (by omega)).2]
      · show (match enablePlugin n regCyc "A" with
            | .ok m2 => enableDeps n m2 "B" []
            | r => r) = .diverge
        match n with
        | 0 => rfl
        | n' + 1 =>
          show (match enableDeps n' regCyc "A" [("B", "^1.0.0")] with
              | .ok m2 => enableDeps (n' + 1) m2 "B" []
              | r => r) = .diverge
          rw [(ih n' (by omega)).1]

/-- C5: on the two-plugin dependency cycle, `enable_plugin` never returns,
whichever plugin of the cycle it is called on: at every recursion budget
the call is still recursing (`diverge`), i.e. the recursive enable has no
cycle detection and does not terminate. -/
theorem c5_cycle_divergence : ∀ fuel : Nat,
    enablePlugin fuel regCyc "A" = .diverge ∧ enablePlugin fuel regCyc "B" = .diverge := by
  intro fuel
  cases fuel with
  | zero => exact ⟨rfl, rfl⟩
  | succ n => exact ⟨(c5aux n).1, (c5aux n).2⟩

/-- C4 amended, general part: a registered, not-enabled plugin `P` with a
manifest dependency on an unregistered name can never be enabled —
`enable_plugin` never returns `Ok`, and every error return leaves `P`'s map
entry (hence its `Installed` state) untouched and `P` out of
`enabled_plugins`; moreover when every dependency listed before the missing
one is registered, satisfies its requirement and is already enabled, the
error is exactly the missing-dependency error and the whole manager is
unchanged. -/
theorem c4_missing_dependency (m : PluginManager) (P : String) (p : Plugin) (d r : String)
    (hP : lookupA m.plugins P = some p)
    (hnen : P ∉ m.enabled_plugins)
    (hdep : (d, r) ∈ p.manifest.dependencies)
    (hmiss : lookupA m.plugins d = none) :
    (∀ fuel m', enablePlugin fuel m P ≠ .ok m') ∧
    (∀ fuel e m', enablePlugin fuel m P = .err e m' →
      lookupA m'.plugins P = some p ∧ P ∉ m'.enabled_plugins) ∧
    (∀ pre post, p.manifest.dependencies = pre ++ (d, r) :: post →
      (∀ p' ∈ pre, ∃ q, lookupA m.plugins p'.1 = some q ∧
        satisfiesRequirement q.manifest.version p'.2 = some true ∧
        p'.1 ∈ m.enabled_plugins) →
      enablePlugin (pre.length + 2) m P = .err (.missingDependency P d) m) := by
  refine ⟨?_, ?_, ?_⟩
  · intro fuel m' hok
    cases fuel with
    | zero => simp [enablePlugin] at hok
    | succ n =>
      rw [enablePlugin] at hok
      rw [hP] at hok
      simp only at hok
      rw [if_neg hnen] at hok
      exact enable_deps_missing_not_ok n m P _ m' ⟨(d, r), hdep, hmiss⟩ hok
  · intro fuel e m' herr
    have hout : ∀ s ∈ ([] : List String) ++ [P], s ∉ m.enabled_plugins := by
      intro s hs
      obtain rfl : s = P := by simpa using hs
      exact hnen
    have hchain : StkChain m (([] : List String) ++ [P]) := trivial
    have hPout : P ∉ m'.enabled_plugins :=
      ((enable_stack fuel).1 m P [] hout hchain).1 e m' herr P (by simp)
    have hframe := ((enable_basic fuel).1 m P m' (by rw [herr]; rfl)).2.2 P hPout
    exact ⟨hframe.trans hP, hPout⟩
  · intro pre post hdeps hpre
    have haux : ∀ pre' : List (String × String),
        (∀ p' ∈ pre', ∃ q, lookupA m.plugins p'.1 = some q ∧
          satisfiesRequirement q.manifest.version p'.2 = some true ∧
          p'.1 ∈ m.enabled_plugins) →
        enableDeps (pre'.length + 1) m P (pre' ++ (d, r) :: post) =
          .err (.missingDependency P d) m := by
      intro pre'
      induction pre' with
      | nil =>
        intro _
        show enableDeps 1 m P ((d, r) :: post) = _
        rw [enableDeps]
        rw [hmiss]
      | cons p' pre'' ih =>
        intro hpre'
        obtain ⟨d', r'⟩ := p'
        obtain ⟨q, hq1, hq2, hq3⟩ := hpre' (d', r') (List.mem_cons_self _ _)
        show enableDeps (pre''.length + 1 + 1) m P ((d', r') :: (pre'' ++ (d, r) :: post)) = _
        rw [enableDeps]
        rw [hq1]
        simp only at hq2 ⊢
        rw [hq2]
        simp only [if_pos hq3]
        exact ih (fun p'' hp'' => hpre' p'' (List.mem_cons_of_mem _ hp''))
    show enablePlugin (pre.length + 1 + 1) m P = _
    rw [enablePlugin]
    rw [hP]
    simp only
    rw [if_neg hnen, hdeps]
    exact haux pre hpre

/-- Manifest of `P` in the C4 counterexample: first dependency has a version
mismatch, second is missing. -/
def mfPmix : PluginManifest :=
  ⟨"P", none, "1.0.0", none, none, none, none, [("A", "^2.0.0"), ("M", "^1.0.0")], [], []⟩

/-- Registered dependency `A` (version 1.0.0, mismatching `^2.0.0`). -/
def mfDepA : PluginManifest := ⟨"A", none, "1.0.0", none, none, none, none, [], [], []⟩

/-- The C4 counterexample registry. -/
def regPMiss : PluginManager :=
  ⟨[("A", ⟨mfDepA, "plugins/A", .installed⟩), ("P", ⟨mfPmix, "plugins/P", .installed⟩)], []⟩

/-- C4 counterexample: `P` is installed, not enabled, and has a dependency
on the unregistered name `M`, yet `enable_plugin("P")` fails with a
version-mismatch error (for the dependency iterated first), not with a
missing-dependency error. -/
theorem c4_counterexample :
    lookupA regPMiss.plugins "P" = some ⟨mfPmix, "plugins/P", .installed⟩ ∧
    "P" ∉ regPMiss.enabled_plugins ∧
    ("M", "^1.0.0") ∈ mfPmix.dependencies ∧
    lookupA regPMiss.plugins "M" = none ∧
    enablePlugin 5 regPMiss "P" = .err (.versionMismatch "P" "A" "^2.0.0") regPMiss ∧
    PluginError.versionMismatch "P" "A" "^2.0.0" ≠
      PluginError.missingDependency "P" "M" := by
  exact ⟨rfl, by decide, by decide, rfl, rfl, by decide⟩

/-- Manifest of `P` in the C4 witness registry: a single, missing
dependency. -/
def mfPM : PluginManifest :=
  ⟨"P", none, "1.0.0", none, none, none, none, [("M", "^1.0.0")], [], []⟩

/-- The C4 witness registry. -/
def regMiss : PluginManager := ⟨[("P", ⟨mfPM, "plugins/P", .installed⟩)], []⟩

/-- Closed instantiation of `c4_missing_dependency`. -/
theorem c4_missing_dependency_witness :
    enablePlugin 2 regMiss "P" = .err (.missingDependency "P" "M") regMiss :=
  (c4_missing_dependency regMiss "P" ⟨mfPM, "plugins/P", .installed⟩ "M" "^1.0.0"
    rfl (by decide) (by decide) rfl).2.2 [] [] rfl (by simp)

/-! ## Disable: frame lemmas, invariant and closure preservation -/

theorem containsKeyA_of_mem_keys {α : Type} (k : String) :
    ∀ l : List (String × α), k ∈ l.map Prod.fst → containsKeyA l k = true := by
  intro l
  induction l with
  | nil => intro h; exact absurd h (by simp)
  | cons kv rest ih =>
    intro h
    rw [List.map_cons] at h
    unfold containsKeyA
    rw [lookupA_cons]
    by_cases hk : kv.1 = k
    · rw [if_pos hk]; rfl
    · rw [if_neg hk]
      rcases List.mem_cons.mp h with h1 | h1
      · exact absurd h1.symm hk
      · exact ih h1

theorem mem_depNames_dependent (m : PluginManager) (name q : String)
    (h : name ∈ depNames m q) : Dependent m name q := by
  unfold depNames at h
  unfold Dependent
  cases hl : lookupA m.plugins q with
  | none =>
    rw [hl] at h
    exact absurd h (by simp)
  | some p =>
    rw [hl] at h
    show containsKeyA p.manifest.dependencies name = true
    exact containsKeyA_of_mem_keys name _ h

theorem dependent_mem_list (m : PluginManager) (name q : String) (h : Dependent m name q) :
    q ∈ (m.plugins.filter
      (fun kp => containsKeyA kp.2.manifest.dependencies name)).map Prod.fst := by
  unfold Dependent at h
  cases hl : lookupA m.plugins q with
  | none => rw [hl] at h; exact absurd h (by simp)
  | some p =>
    rw [hl] at h
    have hmem : (q, p) ∈ m.plugins := lookupA_mem q p m.plugins hl
    exact List.mem_map.mpr ⟨(q, p), List.mem_filter.mpr ⟨hmem, by simpa using h⟩, rfl⟩

theorem disable_basic : ∀ fuel : Nat,
    (∀ m name m', (disablePlugin fuel m name).endState = some m' →
      m'.enabled_plugins.Sublist m.enabled_plugins ∧ sameManifests m m' ∧
      (∀ q ∈ m'.enabled_plugins, lookupA m'.plugins q = lookupA m.plugins q)) ∧
    (∀ m name L m', (disableDependents fuel m name L).endState = some m' →
      m'.enabled_plugins.Sublist m.enabled_plugins ∧ sameManifests m m' ∧
      (∀ q ∈ m'.enabled_plugins, lookupA m'.plugins q = lookupA m.plugins q)) := by
  intro fuel
  induction fuel with
  | zero =>
    constructor
    · intro m name m' h; simp [disablePlugin, OpResult.endState] at h
    · intro m name L m' h; simp [disableDependents, OpResult.endState] at h
  | succ n ih =>
    constructor
    · intro m name m' h
      rw [disablePlugin] at h
      by_cases hkey : containsKeyA m.plugins name = true
      · rw [if_pos hkey] at h
        by_cases hmem : name ∈ m.enabled_plugins
        · rw [if_pos hmem] at h
          exact ih.2 m name _ m' h
        · rw [if_neg hmem] at h
          simp only [OpResult.endState] at h
          obtain rfl : m = m' := by simpa using h
          exact ⟨List.Sublist.refl _, sameManifests_refl m, fun q _ => rfl⟩
      · rw [if_neg hkey] at h
        simp only [OpResult.endState] at h
        obtain rfl : m = m' := by simpa using h
        exact ⟨List.Sublist.refl _, sameManifests_refl m, fun q _ => rfl⟩
    · intro m name L m' h
      cases L with
      | nil =>
        rw [disableDependents] at h
        simp only [OpResult.endState] at h
        obtain rfl : _ = m' := by simpa using h
        refine ⟨List.filter_sublist _, sameManifests_setPluginState m name .installed _, ?_⟩
        intro q hq
        have hqname : q ≠ name := by
          have := List.of_mem_filter hq
          simpa using this
        show lookupA (setPluginState m.plugins name .installed) q = lookupA m.plugins q
        rw [lookupA_setPluginState, if_neg hqname]
      | cons d rest =>
        rw [disableDependents] at h
        cases hr : disablePlugin n m d with
        | ok m2 =>
          rw [hr] at h
          obtain ⟨S1, M1, F1⟩ := ih.1 m d m2 (by rw [hr]; rfl)
          obtain ⟨S2, M2, F2⟩ := ih.2 m2 name rest m' h
          refine ⟨S2.trans S1, sameManifests_trans M1 M2, ?_⟩
          intro q hq
          rw [F2 q hq, F1 q (S2.mem hq)]
        | err e m2 =>
          rw [hr] at h
          simp only [OpResult.endState] at h
          obtain rfl : m2 = m' := by simpa using h
          exact ih.1 m d _ (by rw [hr]; rfl)
        | diverge =>
          rw [hr] at h
          simp [OpResult.endState] at h

theorem disable_ok_notMem : ∀ fuel : Nat,
    (∀ m name m', disablePlugin fuel m name = .ok m' → name ∉ m'.enabled_plugins) ∧
    (∀ m name L m', disableDependents fuel m name L = .ok m' →
      name ∉ m'.enabled_plugins) := by
  intro fuel
  induction fuel with
  | zero =>
    constructor
    · intro m name m' h; simp [disablePlugin] at h
    · intro m name L m' h; simp [disableDependents] at h
  | succ n ih =>
    constructor
    · intro m name m' h
      rw [disablePlugin] at h
      by_cases hkey : containsKeyA m.plugins name = true
      · rw [if_pos hkey] at h
        by_cases hmem : name ∈ m.enabled_plugins
        · rw [if_pos hmem] at h
          exact ih.2 m name _ m' h
        · rw [if_neg hmem] at h
          obtain rfl : m = m' := by simpa using h
          exact hmem
      · rw [if_neg hkey] at h
        exact absurd h (by simp)
    · intro m name L m' h
      cases L with
      | nil =>
        rw [disableDependents] at h
        obtain rfl : _ = m' := by simpa using h
        intro hmem
        have := List.of_mem_filter hmem
        simp at this
      | cons d rest =>
        rw [disableDependents] at h
        cases hr : disablePlugin n m d with
        | ok m2 =>
          rw [hr] at h
          exact ih.2 m2 name rest m' h
        | err e m2 => rw [hr] at h; exact absurd h (by simp)
        | diverge => rw [hr] at h; exact absurd h (by simp)

theorem disable_WF : ∀ fuel : Nat,
    (∀ m name m', WF m → (disablePlugin fuel m name).endState = some m' → WF m') ∧
    (∀ m name L m', WF m → (disableDependents fuel m name L).endState = some m' →
      WF m') := by
  intro fuel
  induction fuel with
  | zero =>
    constructor
    · intro m name m' _ h; simp [disablePlugin, OpResult.endState] at h
    · intro m name L m' _ h; simp [disableDependents, OpResult.endState] at h
  | succ n ih =>
    constructor
    · intro m name m' hwf h
      rw [disablePlugin] at h
      by_cases hkey : containsKeyA m.plugins name = true
      · rw [if_pos hkey] at h
        by_cases hmem : name ∈ m.enabled_plugins
        · rw [if_pos hmem] at h
          exact ih.2 m name _ m' hwf h
        · rw [if_neg hmem] at h
          simp only [OpResult.endState] at h
          obtain rfl : m = m' := by simpa using h
          exact hwf
      · rw [if_neg hkey] at h
        simp only [OpResult.endState] at h
        obtain rfl : m = m' := by simpa using h
        exact hwf
    · intro m name L m' hwf h
      cases L with
      | nil =>
        rw [disableDependents] at h
        simp only [OpResult.endState] at h
        obtain rfl : _ = m' := by simpa using h
        constructor
        · exact (List.filter_sublist _).nodup hwf.1
        · intro q hq
          have hq1 : q ∈ m.enabled_plugins := (List.filter_sublist _).subset hq
          have hqname : q ≠ name := by
            have := List.of_mem_filter hq
            simpa using this
          obtain ⟨p, hp1, hp2⟩ := hwf.2 q hq1
          refine ⟨p, ?_, hp2⟩
          show lookupA (setPluginState m.plugins name .installed) q = some p
          rw [lookupA_setPluginState, if_neg hqname]
          exact hp1
      | cons d rest =>
        rw [disableDependents] at h
        cases hr : disablePlugin n m d with
        | ok m2 =>
          rw [hr] at h
          exact ih.2 m2 name rest m' (ih.1 m d m2 hwf (by rw [hr]; rfl)) h
        | err e m2 =>
          rw [hr] at h
          simp only [OpResult.endState] at h
          obtain rfl : m2 = m' := by simpa using h
          exact ih.1 m d _ hwf (by rw [hr]; rfl)
        | diverge =>
          rw [hr] at h
          simp [OpResult.endState] at h

theorem disable_closed : ∀ fuel : Nat,
    (∀ m name m', depClosed m → (disablePlugin fuel m name).endState = some m' →
      depClosed m') ∧
    (∀ m name L m', depClosed m →
      (∀ q, Dependent m name q → q ∈ L ∨ q ∉ m.enabled_plugins) →
      (disableDependents fuel m name L).endState = some m' → depClosed m') := by
  intro fuel
  induction fuel with
  | zero =>
    constructor
    · intro m name m' _ h; simp [disablePlugin, OpResult.endState] at h
    · intro m name L m' _ _ h; simp [disableDependents, OpResult.endState] at h
  | succ n ih =>
    constructor
    · intro m name m' hcl h
      rw [disablePlugin] at h
      by_cases hkey : containsKeyA m.plugins name = true
      · rw [if_pos hkey] at h
        by_cases hmem : name ∈ m.enabled_plugins
        · rw [if_pos hmem] at h
          refine ih.2 m name _ m' hcl ?_ h
          intro q hq
          exact Or.inl (dependent_mem_list m name q hq)
        · rw [if_neg hmem] at h
          simp only [OpResult.endState] at h
          obtain rfl : m = m' := by simpa using h
          exact hcl
      · rw [if_neg hkey] at h
        simp only [OpResult.endState] at h
        obtain rfl : m = m' := by simpa using h
        exact hcl
    · intro m name L m' hcl hdeps h
      cases L with
      | nil =>
        rw [disableDependents] at h
        simp only [OpResult.endState] at h
        obtain rfl : _ = m' := by simpa using h
        intro q hq d hd
        have hq1 : q ∈ m.enabled_plugins := (List.filter_sublist _).subset hq
        have hqname : q ≠ name := by
          have := List.of_mem_filter hq
          simpa using this
        have hdnames : d ∈ depNames m q := by
          have hsm : sameManifests m
              ⟨setPluginState m.plugins name .installed,
                m.enabled_plugins.filter (fun n => n ≠ name)⟩ :=
            sameManifests_setPluginState m name .installed _
          rw [← sameManifests_depNames hsm q]
          exact hd
        have hdmem : d ∈ m.enabled_plugins := hcl q hq1 d hdnames
        have hdname : d ≠ name := by
          intro he
          subst he
          have hdep : Dependent m d q := mem_depNames_dependent m d q hdnames
          rcases hdeps q hdep with h1 | h1
          · exact absurd h1 (by simp)
          · exact h1 hq1
        refine List.mem_filter.mpr ⟨hdmem, ?_⟩
        simpa using hdname
      | cons d0 rest =>
        rw [disableDependents] at h
        cases hr : disablePlugin n m d0 with
        | ok m2 =>
          rw [hr] at h
          obtain ⟨S1, M1, -⟩ := (disable_basic n).1 m d0 m2 (by rw [hr]; rfl)
          refine ih.2 m2 name rest m' (ih.1 m d0 m2 hcl (by rw [hr]; rfl)) ?_ h
          intro q hq
          have hq0 : Dependent m name q := (sameManifests_dependent M1 name q).mp hq
          rcases hdeps q hq0 with h1 | h1
          · rcases List.mem_cons.mp h1 with rfl | h2
            · exact Or.inr ((disable_ok_notMem n).1 m q m2 hr)
            · exact Or.inl h2
          · exact Or.inr (fun hmem => h1 (S1.subset hmem))
        | err e m2 =>
          rw [hr] at h
          simp only [OpResult.endState] at h
          obtain rfl : m2 = m' := by simpa using h
          exact ih.1 m d0 _ hcl (by rw [hr]; rfl)
        | diverge =>
          rw [hr] at h
          simp [OpResult.endState] at h

/-! ## The remaining registry operations preserve the invariant -/

theorem register_WF : ∀ (found : List (PluginManifest × String)) (m : PluginManager),
    WF m → (∀ p ∈ found, p.1.name ∉ m.enabled_plugins) →
    WF (registerDiscovered m found) := by
  intro found
  induction found with
  | nil => intro m hwf _; exact hwf
  | cons md rest ih =>
    intro m hwf hnames
    show WF (registerDiscovered
      { m with plugins := insertA md.1.name ⟨md.1, md.2, .installed⟩ m.plugins } rest)
    refine ih _ ⟨hwf.1, ?_⟩ ?_
    · intro q hq
      have hqname : q ≠ md.1.name :=
        fun he => hnames md (List.mem_cons_self _ _) (he ▸ hq)
      obtain ⟨p, hp1, hp2⟩ := hwf.2 q hq
      refine ⟨p, ?_, hp2⟩
      show lookupA (insertA md.1.name ⟨md.1, md.2, .installed⟩ m.plugins) q = some p
      rw [lookupA_insertA_ne _ _ _ hqname]
      exact hp1
    · intro p hp
      exact hnames p (List.mem_cons_of_mem _ hp)

theorem install_WF (m : PluginManager) (mf : PluginManifest) (dir : String) (te co : Bool)
    (m' : PluginManager) (hwf : WF m) (hname : mf.name ∉ m.enabled_plugins)
    (h : (installPlugin m mf dir te co).endState = some m') : WF m' := by
  unfold installPlugin at h
  by_cases hte : te = true
  · rw [if_pos hte] at h
    simp only [OpResult.endState] at h
    obtain rfl : m = m' := by simpa using h
    exact hwf
  · rw [if_neg hte] at h
    by_cases hco : co = true
    · rw [if_pos hco] at h
      simp only [OpResult.endState] at h
      obtain rfl : _ = m' := by simpa using h
      refine ⟨hwf.1, ?_⟩
      intro q hq
      have hqname : q ≠ mf.name := fun he => hname (he ▸ hq)
      obtain ⟨p, hp1, hp2⟩ := hwf.2 q hq
      refine ⟨p, ?_, hp2⟩
      show lookupA (insertA mf.name ⟨mf, dir, .installed⟩ m.plugins) q = some p
      rw [lookupA_insertA_ne _ _ _ hqname]
      exact hp1
    · rw [if_neg hco] at h
      simp only [OpResult.endState] at h
      obtain rfl : m = m' := by simpa using h
      exact hwf

theorem uninstall_WF (fuel : Nat) (m : PluginManager) (name : String) (fsOk : Bool)
    (m' : PluginManager) (hwf : WF m)
    (h : (uninstallPlugin fuel m name fsOk).endState = some m') : WF m' := by
  unfold uninstallPlugin at h
  by_cases hkey : containsKeyA m.plugins name = true
  · rw [if_pos hkey] at h
    have hres : ∀ m2 : PluginManager, WF m2 → name ∉ m2.enabled_plugins →
        (if fsOk = true then
            OpResult.ok { m2 with plugins := removeA name m2.plugins }
          else OpResult.err .fsFailure m2).endState = some m' → WF m' := by
      intro m2 hwf2 hnm2 h2
      by_cases hfs : fsOk = true
      · rw [if_pos hfs] at h2
        simp only [OpResult.endState] at h2
        obtain rfl : _ = m' := by simpa using h2
        refine ⟨hwf2.1, ?_⟩
        intro q hq
        have hqname : q ≠ name := fun he => hnm2 (he ▸ hq)
        obtain ⟨p, hp1, hp2⟩ := hwf2.2 q hq
        refine ⟨p, ?_, hp2⟩
        show lookupA (removeA name m2.plugins) q = some p
        rw [lookupA_removeA_ne _ _ hqname]
        exact hp1
      · rw [if_neg hfs] at h2
        simp only [OpResult.endState] at h2
        obtain rfl : m2 = m' := by simpa using h2
        exact hwf2
    by_cases hmem : name ∈ m.enabled_plugins
    · rw [if_pos hmem] at h
      cases hr : disablePlugin fuel m name with
      | ok m2 =>
        rw [hr] at h
        simp only at h
        exact hres m2 ((disable_WF fuel).1 m name m2 hwf (by rw [hr]; rfl))
          ((disable_ok_notMem fuel).1 m name m2 hr) h
      | err e m2 =>
        rw [hr] at h
        simp only [OpResult.endState] at h
        obtain rfl : m2 = m' := by simpa using h
        exact (disable_WF fuel).1 m name _ hwf (by rw [hr]; rfl)
      | diverge =>
        rw [hr] at h
        simp [OpResult.endState] at h
    · rw [if_neg hmem] at h
      simp only at h
      exact hres m hwf hmem h
  · rw [if_neg hkey] at h
    simp only [OpResult.endState] at h
    obtain rfl : m = m' := by simpa using h
    exact hwf

/-! ## Reachable registry states -/

/-- The registry states reachable through `PluginManager` operations,
starting from `PluginManager::new()`; file-system outcomes are arbitrary. -/
inductive Reachable : PluginManager → Prop where
  | new : Reachable ⟨[], []⟩
  | register (m : PluginManager) (found : List (PluginManifest × String)) :
      Reachable m → Reachable (registerDiscovered m found)
  | install (m : PluginManager) (mf : PluginManifest) (dir : String) (te co : Bool)
      (m' : PluginManager) : Reachable m →
      (installPlugin m mf dir te co).endState = some m' → Reachable m'
  | enable (m : PluginManager) (fuel : Nat) (name : String) (m' : PluginManager) :
      Reachable m → (enablePlugin fuel m name).endState = some m' → Reachable m'
  | disable (m : PluginManager) (fuel : Nat) (name : String) (m' : PluginManager) :
      Reachable m → (disablePlugin fuel m name).endState = some m' → Reachable m'
  | uninstall (m : PluginManager) (fuel : Nat) (name : String) (fsOk : Bool)
      (m' : PluginManager) : Reachable m →
      (uninstallPlugin fuel m name fsOk).endState = some m' → Reachable m'

/-! ## Claims C2 and C3: cascading disable and the registry invariant -/

/-- C2 (amended): in every registry state whose enabled set is closed under
manifest dependencies — which holds for all states reachable without an
`install_plugin`/`initialize` insertion that overwrites a currently enabled
plugin's entry — a successful `disable_plugin(P)` removes `P` and leaves no
plugin that transitively depends on `P` in `enabled_plugins`. -/
theorem c2_disable_transitive (m : PluginManager) (P : String) (fuel : Nat)
    (m' : PluginManager) (hcl : depClosed m) (hP : P ∈ m.enabled_plugins)
    (hok : disablePlugin fuel m P = .ok m') :
    P ∉ m'.enabled_plugins ∧ ∀ q, DependsOn m' q P → q ∉ m'.enabled_plugins := by
  have hPnot : P ∉ m'.enabled_plugins := (disable_ok_notMem fuel).1 m P m' hok
  have hcl' : depClosed m' := (disable_closed fuel).1 m P m' hcl (by rw [hok]; rfl)
  refine ⟨hPnot, ?_⟩
  have key : ∀ a b, DependsOn m' a b → a ∈ m'.enabled_plugins → b ∈ m'.enabled_plugins := by
    intro a b hdep
    induction hdep with
    | direct hb => intro ha; exact hcl' _ ha _ hb
    | step hb _ ih => intro ha; exact ih (hcl' _ ha _ hb)
  exact fun q hdep hq => hPnot (key q P hdep hq)

/-- Witness plugins for `c2_disable_transitive`: `Bw` depends on `Aw`, both
enabled. -/
def mfAw : PluginManifest := ⟨"A", none, "1.2.0", none, none, none, none, [], [], []⟩

/-- Witness plugin `Bw`. -/
def mfBw : PluginManifest :=
  ⟨"B", none, "0.1.0", none, none, none, none, [("A", "^1.0.0")], [], []⟩

/-- Witness registry with both plugins enabled. -/
def c2wreg : PluginManager :=
  ⟨[("A", ⟨mfAw, "plugins/A", .enabled⟩), ("B", ⟨mfBw, "plugins/B", .enabled⟩)], ["A", "B"]⟩

/-- Result of disabling `A` in `c2wreg`. -/
def c2wres : PluginManager :=
  ⟨[("A", ⟨mfAw, "plugins/A", .installed⟩), ("B", ⟨mfBw, "plugins/B", .installed⟩)], []⟩

/-- Closed instantiation of `c2_disable_transitive`: disabling `A` also
removes its dependent `B`. -/
theorem c2_disable_transitive_witness :
    "A" ∉ c2wres.enabled_plugins ∧ "B" ∉ c2wres.enabled_plugins := by
  have h := c2_disable_transitive c2wreg "A" 5 c2wres (by unfold depClosed; decide) (by decide) rfl
  exact ⟨h.1, h.2 "B" (DependsOn.direct (by decide))⟩

/-- C2 counterexample, plugin `P`. -/
def mfP2 : PluginManifest := ⟨"P", none, "1.0.0", none, none, none, none, [], [], []⟩

/-- C2 counterexample, plugin `X` (depends on `P`). -/
def mfX : PluginManifest :=
  ⟨"X", none, "1.0.0", none, none, none, none, [("P", "^1.0.0")], [], []⟩

/-- C2 counterexample, plugin `Q` as first discovered (depends on `P`). -/
def mfQ : PluginManifest :=
  ⟨"Q", none, "1.0.0", none, none, none, none, [("P", "^1.0.0")], [], []⟩

/-- C2 counterexample, the later-installed `Q` (depends on `X`). -/
def mfQ2 : PluginManifest :=
  ⟨"Q", none, "2.0.0", none, none, none, none, [("X", "^1.0.0")], [], []⟩

/-- C2 counterexample, the discovered plugin set. -/
def c2found : List (PluginManifest × String) :=
  [(mfP2, "plugins/P"), (mfX, "plugins/X"), (mfQ, "plugins/Q")]

/-- C2 counterexample, the registry after discovery. -/
def c2m1 : PluginManager := registerDiscovered ⟨[], []⟩ c2found

/-- C2 counterexample, after `enable_plugin("Q")`. -/
def c2m2 : PluginManager :=
  ⟨[("P", ⟨mfP2, "plugins/P", .enabled⟩), ("X", ⟨mfX, "plugins/X", .installed⟩),
    ("Q", ⟨mfQ, "plugins/Q", .enabled⟩)], ["P", "Q"]⟩

/-- C2 counterexample, after installing the new `Q` (which overwrites the
enabled `Q`'s entry). -/
def c2m3 : PluginManager :=
  ⟨[("P", ⟨mfP2, "plugins/P", .enabled⟩), ("X", ⟨mfX, "plugins/X", .installed⟩),
    ("Q", ⟨mfQ2, "plugins/Q2", .installed⟩)], ["P", "Q"]⟩

/-- C2 counterexample, after `disable_plugin("P")`. -/
def c2m4 : PluginManager :=
  ⟨[("P", ⟨mfP2, "plugins/P", .installed⟩), ("X", ⟨mfX, "plugins/X", .installed⟩),
    ("Q", ⟨mfQ2, "plugins/Q2", .installed⟩)], ["Q"]⟩

/-- C2 counterexample: a state reachable through registry operations
(discover `P`, `X`, `Q`; enable `Q`; install a new `Q` depending on `X`)
in which disabling `P` succeeds yet leaves `Q`, which transitively depends
on `P` (through `X`), in `enabled_plugins`. -/
theorem c2_counterexample :
    Reachable c2m3 ∧
    "P" ∈ c2m3.enabled_plugins ∧
    disablePlugin 9 c2m3 "P" = .ok c2m4 ∧
    DependsOn c2m4 "Q" "P" ∧
    "Q" ∈ c2m4.enabled_plugins := by
  refine ⟨?_, by decide, rfl, ?_, by decide⟩
  · refine Reachable.install c2m2 mfQ2 "plugins/Q2" false true c2m3 ?_ (by rfl)
    refine Reachable.enable c2m1 5 "Q" c2m2 ?_ (by rfl)
    exact Reachable.register ⟨[], []⟩ c2found Reachable.new
  · exact @DependsOn.step c2m4 "Q" "X" "P" (by decide) (DependsOn.direct (by decide))

/-- C3 (amended): `enable_plugin`, `disable_plugin` and `uninstall_plugin`
preserve the registry invariant in every outcome; the inserting operations
(`initialize` discovery registration and `install_plugin`) preserve it
provided no inserted manifest carries the name of a currently enabled
plugin. -/
theorem c3_registry_invariant :
    (∀ (fuel : Nat) (m : PluginManager) (name : String) (m' : PluginManager), WF m →
        (enablePlugin fuel m name).endState = some m' → WF m') ∧
    (∀ (fuel : Nat) (m : PluginManager) (name : String) (m' : PluginManager), WF m →
        (disablePlugin fuel m name).endState = some m' → WF m') ∧
    (∀ (fuel : Nat) (m : PluginManager) (name : String) (fsOk : Bool)
        (m' : PluginManager), WF m →
        (uninstallPlugin fuel m name fsOk).endState = some m' → WF m') ∧
    (∀ (m : PluginManager) (found : List (PluginManifest × String)), WF m →
        (∀ p ∈ found, p.1.name ∉ m.enabled_plugins) → WF (registerDiscovered m found)) ∧
    (∀ (m : PluginManager) (mf : PluginManifest) (dir : String) (te co : Bool)
        (m' : PluginManager), WF m → mf.name ∉ m.enabled_plugins →
        (installPlugin m mf dir te co).endState = some m' → WF m') :=
  ⟨fun fuel m name m' hwf h => (enable_WF fuel).1 m name m' hwf h,
   fun fuel m name m' hwf h => (disable_WF fuel).1 m name m' hwf h,
   fun fuel m name fsOk m' hwf h => uninstall_WF fuel m name fsOk m' hwf h,
   fun m found hwf hn => register_WF found m hwf hn,
   fun m mf dir te co m' hwf hn h => install_WF m mf dir te co m' hwf hn h⟩

/-- C3 counterexample, the initially registered and enabled plugin `Q`. -/
def mfQold : PluginManifest := ⟨"Q", none, "1.0.0", none, none, none, none, [], [], []⟩

/-- C3 counterexample, the manifest installed over the enabled `Q`. -/
def mfQnew : PluginManifest := ⟨"Q", none, "2.0.0", none, none, none, none, [], [], []⟩

/-- C3 counterexample, the starting registry (invariant holds). -/
def c3reg : PluginManager := ⟨[("Q", ⟨mfQold, "plugins/Q", .enabled⟩)], ["Q"]⟩

/-- C3 counterexample, the registry after the install (invariant broken). -/
def c3regBroken : PluginManager := ⟨[("Q", ⟨mfQnew, "plugins/Q2", .installed⟩)], ["Q"]⟩

/-- C3 counterexample: `install_plugin` of a manifest named like a currently
enabled plugin (with the install target directory absent, the copy
succeeding) overwrites the enabled plugin's entry with state `Installed`
and breaks the invariant: `"Q"` stays in `enabled_plugins` while its map
entry is no longer `Enabled`. -/
theorem c3_counterexample :
    WF c3reg ∧
    installPlugin c3reg mfQnew "plugins/Q2" false true = .ok c3regBroken ∧
    ¬ WF c3regBroken := by
  refine ⟨⟨by decide, ?_⟩, rfl, ?_⟩
  · intro n hn
    obtain rfl : n = "Q" := by simpa [c3reg] using hn
    exact ⟨⟨mfQold, "plugins/Q", .enabled⟩, rfl, rfl⟩
  · rintro ⟨-, h2⟩
    obtain ⟨p, hp1, hp2⟩ := h2 "Q" (List.mem_cons_self _ _)
    have hp : p = ⟨mfQnew, "plugins/Q2", .installed⟩ := by
      have : some p = some (⟨mfQnew, "plugins/Q2", PluginState.installed⟩ : Plugin) := by
        rw [← hp1]; rfl
      simpa using this
    rw [hp] at hp2
    exact absurd hp2 (by decide)

/-- Witness registry states for `c3_registry_invariant`. -/
def c3wA : PluginManifest := ⟨"A", none, "1.2.0", none, none, none, none, [], [], []⟩

/-- Witness plugin `B` depending on `A`. -/
def c3wB : PluginManifest :=
  ⟨"B", none, "0.1.0", none, none, none, none, [("A", "^1.0.0")], [], []⟩

/-- Witness registry before enabling. -/
def c3w0 : PluginManager :=
  ⟨[("A", ⟨c3wA, "plugins/A", .installed⟩), ("B", ⟨c3wB, "plugins/B", .installed⟩)], []⟩

/-- Witness registry after enabling `B`. -/
def c3w1 : PluginManager :=
  ⟨[("A", ⟨c3wA, "plugins/A", .enabled⟩), ("B", ⟨c3wB, "plugins/B", .enabled⟩)], ["A", "B"]⟩

/-- Witness registry after disabling `B` again. -/
def c3w3 : PluginManager :=
  ⟨[("A", ⟨c3wA, "plugins/A", .enabled⟩), ("B", ⟨c3wB, "plugins/B", .installed⟩)], ["A"]⟩

/-- Witness registry after uninstalling `B`. -/
def c3w2 : PluginManager :=
  ⟨[("A", ⟨c3wA, "plugins/A", .enabled⟩)], ["A"]⟩

/-- Closed instantiation of every conjunct of `c3_registry_invariant`. -/
theorem c3_registry_invariant_witness :
    WF c3w1 ∧ WF c3w3 ∧ WF c3w2 ∧
    WF (registerDiscovered ⟨[], []⟩ [(c3wA, "plugins/A")]) ∧
    WF ⟨[("A", ⟨c3wA, "plugins/A", .installed⟩)], []⟩ := by
  have hwfE : WF ⟨[], []⟩ := ⟨by decide, fun n hn => absurd hn (by simp)⟩
  have hwf0 : WF c3w0 := ⟨by decide, fun n hn => absurd hn (by simp [c3w0])⟩
  have hwf1 : WF c3w1 := c3_registry_invariant.1 5 c3w0 "B" c3w1 hwf0 rfl
  refine ⟨hwf1, ?_, ?_, ?_, ?_⟩
  · exact c3_registry_invariant.2.1 5 c3w1 "B" c3w3 hwf1 rfl
  · exact c3_registry_invariant.2.2.1 5 c3w1 "B" true c3w2 hwf1 rfl
  · exact c3_registry_invariant.2.2.2.1 ⟨[], []⟩ [(c3wA, "plugins/A")] hwfE (by decide)
  · exact c3_registry_invariant.2.2.2.2 ⟨[], []⟩ c3wA "plugins/A" false true
      ⟨[("A", ⟨c3wA, "plugins/A", .installed⟩)], []⟩ hwfE (by decide) rfl

end HyprSupreme
